import Mathlib

/-!
GoLLRB: a left-leaning red-black tree of `uint64` keys.

A shallow embedding of `llrb/llrb.go` and `llrb/iterator.go`.

* A `*Node` is a value of the inductive type `Node`; Go's `nil` pointer is `Node.nil`.
  Every node is owned by exactly one parent link, so in-place mutation followed by
  rebinding of the parent's link is modelled by returning the rebuilt subtree.
* A `uint64` key is a natural number; the code only ever compares keys, so no
  modular arithmetic is involved.  `inRange` states that all keys fit in 64 bits.
* The field `count` is a Go `int`; it is an integer here, incremented and decremented
  exactly.  Go's `t.count++` and `t.count--` agree with that unless the old value is the
  largest (`maxInt`) or the smallest (`minInt`) value of an `int`, where they wrap around;
  `SetLen` can put such a value into the field.  Theorems about an arbitrary tree therefore
  state the new value of `Len()` only for a count that is not at that end of the range;
  trees built from `New()` hold as many nodes as their count says.
* A run-time panic (an explicit `panic(...)` or a nil dereference) is the result `none`.
* The functions `delete` and `deleteMin` recurse into a child of the restructured node; they
  take a fuel argument that bounds the recursion depth, and `Delete` supplies `size + 1`.
  The theorems `delete_fuel` and `deleteMin_fuel` show that any larger fuel gives the same
  result, so `none` never stands for exhausted fuel there.
* The function `walkDownRot23` is the identity in the source; `replaceOrInsert` and
  `insertNoReplace` apply it to a node known to be non-nil and go on with the same node.
* An `ItemIterator` closure may carry state; it is a function `σ → Nat → Bool × σ`.
-/

namespace GoLLRB

/-- A `*Node` of the source: `nil`, or a node with `Value`, `Left`, `Right`, `Black`. -/
inductive Node where
  | nil : Node
  | node (Value : Nat) (Left Right : Node) (Black : Bool) : Node
  deriving DecidableEq, Repr

open Node

/-- The struct `LLRB` of the source. -/
structure LLRB where
  count : Int
  root : Node
  deriving DecidableEq, Repr

/-- The largest value of a Go `int` (64 bits): `t.count++` wraps around at this value. -/
def maxInt : Int := 9223372036854775807

/-- The smallest value of a Go `int` (64 bits): `t.count--` wraps around at this value. -/
def minInt : Int := -9223372036854775808

/-- Field `Left`; only used where the source has already established `h != nil`. -/
def Node.Left : Node → Node
  | nil => nil
  | node _ l _ _ => l

/-- Field `Right`; only used where the source has already established `h != nil`. -/
def Node.Right : Node → Node
  | nil => nil
  | node _ _ r _ => r

def less (x y : Nat) : Bool := decide (x < y)

def New : LLRB := { count := 0, root := nil }

def SetRoot (t : LLRB) (r : Node) : LLRB := { t with root := r }

def SetLen (t : LLRB) (l : Int) : LLRB := { t with count := l }

def Root (t : LLRB) : Node := t.root

def Len (t : LLRB) : Int := t.count

def newNode (item : Nat) : Node := node item nil nil false

def isRed (h : Node) : Bool :=
  match h with
  | nil => false
  | node _ _ _ black => !black

def rotateLeft (h : Node) : Option Node :=
  match h with
  | node v l (node xv xl xr xb) b =>
    if xb then none -- panic("rotating a black link")
    else some (node xv (node v l xl false) xr b)
  | _ => none

def rotateRight (h : Node) : Option Node :=
  match h with
  | node v (node xv xl xr xb) r b =>
    if xb then none -- panic("rotating a black link")
    else some (node xv xl (node v xr r false) b)
  | _ => none

def flip (h : Node) : Option Node :=
  match h with
  | node v (node lv ll lr lb) (node rv rl rr rb) b =>
    some (node v (node lv ll lr (!lb)) (node rv rl rr (!rb)) (!b))
  | _ => none

def moveRedLeft (h : Node) : Option Node :=
  match flip h with
  | some (node v l r b) =>
    if isRed r.Left then
      match rotateRight r with
      | some r1 =>
        match rotateLeft (node v l r1 b) with
        | some h1 => flip h1
        | none => none
      | none => none
    else some (node v l r b)
  | _ => none

def moveRedRight (h : Node) : Option Node :=
  match flip h with
  | some (node v l r b) =>
    if isRed l.Left then
      match rotateRight (node v l r b) with
      | some h1 => flip h1
      | none => none
    else some (node v l r b)
  | _ => none

def fixUp (h : Node) : Option Node :=
  match h with
  | nil => none
  | node _ _ r _ =>
    match (if isRed r then rotateLeft h else some h) with
    | none => none
    | some h1 =>
      match (if isRed h1.Left && isRed h1.Left.Left then rotateRight h1 else some h1) with
      | none => none
      | some h2 =>
        if isRed h2.Left && isRed h2.Right then flip h2 else some h2

def walkDownRot23 (h : Node) : Node := h

def walkUpRot23 (h : Node) : Option Node :=
  match h with
  | nil => none
  | node _ l r _ =>
    match (if isRed r && !isRed l then rotateLeft h else some h) with
    | none => none
    | some h1 =>
      match (if isRed h1.Left && isRed h1.Left.Left then rotateRight h1 else some h1) with
      | none => none
      | some h2 =>
        if isRed h2.Left && isRed h2.Right then flip h2 else some h2

def replaceOrInsert (h : Node) (item : Nat) : Option (Node × Bool) :=
  match h with
  | nil => some (newNode item, false)
  | node v l r b =>
    if less item v then
      match replaceOrInsert l item with
      | none => none
      | some (l1, replaced) =>
        match walkUpRot23 (node v l1 r b) with
        | none => none
        | some h1 => some (h1, replaced)
    else if less v item then
      match replaceOrInsert r item with
      | none => none
      | some (r1, replaced) =>
        match walkUpRot23 (node v l r1 b) with
        | none => none
        | some h1 => some (h1, replaced)
    else
      match walkUpRot23 (node item l r b) with
      | none => none
      | some h1 => some (h1, true)

/-- The assignment `t.root.Black = true`; a nil root is a nil dereference. -/
def setRootBlack (h : Node) : Option Node :=
  match h with
  | nil => none
  | node v l r _ => some (node v l r true)

def ReplaceOrInsert (t : LLRB) (item : Nat) : Option (LLRB × Bool) :=
  match replaceOrInsert t.root item with
  | none => none
  | some (root, replaced) =>
    match setRootBlack root with
    | none => none
    | some root1 =>
      some ({ count := if replaced then t.count else t.count + 1, root := root1 }, replaced)

def ReplaceOrInsertBulk (t : LLRB) (items : List Nat) : Option LLRB :=
  match items with
  | [] => some t
  | i :: rest =>
    match ReplaceOrInsert t i with
    | none => none
    | some (t1, _) => ReplaceOrInsertBulk t1 rest

def insertNoReplace (h : Node) (item : Nat) : Option Node :=
  match h with
  | nil => some (newNode item)
  | node v l r b =>
    if less item v then
      match insertNoReplace l item with
      | none => none
      | some l1 => walkUpRot23 (node v l1 r b)
    else
      match insertNoReplace r item with
      | none => none
      | some r1 => walkUpRot23 (node v l r1 b)

def InsertNoReplace (t : LLRB) (item : Nat) : Option LLRB :=
  match insertNoReplace t.root item with
  | none => none
  | some root =>
    match setRootBlack root with
    | none => none
    | some root1 => some { count := t.count + 1, root := root1 }

def InsertNoReplaceBulk (t : LLRB) (items : List Nat) : Option LLRB :=
  match items with
  | [] => some t
  | i :: rest =>
    match InsertNoReplace t i with
    | none => none
    | some t1 => InsertNoReplaceBulk t1 rest

/-- The function `deleteMin`; the first argument bounds the recursion depth. -/
def deleteMin : Nat → Node → Option (Node × Nat × Bool)
  | 0, _ => none
  | _ + 1, nil => some (nil, 0, false)
  | fuel + 1, node v l r b =>
    match l with
    | nil => some (nil, v, true)
    | node _ ll _ _ =>
      match (if !isRed l && !isRed ll then moveRedLeft (node v l r b)
             else some (node v l r b)) with
      | some (node v1 l1 r1 b1) =>
        match deleteMin fuel l1 with
        | none => none
        | some (l2, deleted, wasDeleted) =>
          match fixUp (node v1 l2 r1 b1) with
          | none => none
          | some h2 => some (h2, deleted, wasDeleted)
      | _ => none

/-- The method `delete`; the first argument bounds the recursion depth. -/
def delete : Nat → Node → Nat → Option (Node × Bool)
  | 0, _, _ => none
  | _ + 1, nil, _ => some (nil, false)
  | fuel + 1, node v l r b, item =>
    if less item v then
      match l with
      | nil => some (node v l r b, false) -- item not present. Nothing to delete
      | node _ ll _ _ =>
        match (if !isRed l && !isRed ll then moveRedLeft (node v l r b)
               else some (node v l r b)) with
        | some (node v1 l1 r1 b1) =>
          match delete fuel l1 item with
          | none => none
          | some (l2, deleted) =>
            match fixUp (node v1 l2 r1 b1) with
            | none => none
            | some h2 => some (h2, deleted)
        | _ => none
    else
      match (if isRed l then rotateRight (node v l r b) else some (node v l r b)) with
      | some (node v1 l1 r1 b1) =>
        if !less v1 item && r1 = nil then some (nil, true)
        else
          match (if r1 ≠ nil && !isRed r1 && !isRed r1.Left then moveRedRight (node v1 l1 r1 b1)
                 else some (node v1 l1 r1 b1)) with
          | some (node v2 l2 r2 b2) =>
            if !less v2 item then
              match deleteMin fuel r2 with
              | none => none
              | some (r3, v3, deleted) =>
                if !deleted then none -- panic("logic")
                else
                  match fixUp (node v3 l2 r3 b2) with
                  | none => none
                  | some h3 => some (h3, deleted)
            else
              match delete fuel r2 item with
              | none => none
              | some (r3, deleted) =>
                match fixUp (node v2 l2 r3 b2) with
                | none => none
                | some h3 => some (h3, deleted)
          | _ => none
      | _ => none

/-- Number of nodes reachable from `h`. -/
def size : Node → Nat
  | nil => 0
  | node _ l r _ => size l + size r + 1

/-- The statement `if t.root != nil { t.root.Black = true }`. -/
def blackenRoot (h : Node) : Node :=
  match h with
  | nil => nil
  | node v l r _ => node v l r true

def Delete (t : LLRB) (key : Nat) : Option (LLRB × Bool) :=
  match delete (size t.root + 1) t.root key with
  | none => none
  | some (root, deleted) =>
    some ({ count := if deleted then t.count - 1 else t.count, root := blackenRoot root },
          deleted)

/-- The loop of `Get`, entered with the current node `h`. -/
def getLoop (h : Node) (key : Nat) : Nat × Bool :=
  match h with
  | nil => (0, false)
  | node v l r _ =>
    if less key v then getLoop l key
    else if less v key then getLoop r key
    else (v, true)

def Get (t : LLRB) (key : Nat) : Nat × Bool := getLoop t.root key

def Has (t : LLRB) (key : Nat) : Bool := (Get t key).2

/-- The loop `for h.Left != nil` of `Min` at a node with value `v` and left child `l`,
followed by `return h.Value`. -/
def minLoop (v : Nat) (l : Node) : Nat :=
  match l with
  | nil => v
  | node lv ll _ _ => minLoop lv ll

def Min (t : LLRB) : Nat :=
  match t.root with
  | nil => 0
  | node v l _ _ => minLoop v l

/-- The loop `for h.Right != nil` of `Max` at a node with value `v` and right child `r`,
followed by `return h.Value`. -/
def maxLoop (v : Nat) (r : Node) : Nat :=
  match r with
  | nil => v
  | node rv _ rr _ => maxLoop rv rr

def Max (t : LLRB) : Nat :=
  match t.root with
  | nil => 0
  | node v _ r _ => maxLoop v r

def DeleteMin (t : LLRB) : Option (LLRB × Nat × Bool) :=
  match deleteMin (size t.root + 1) t.root with
  | none => none
  | some (root, deleted, wasDeleted) =>
    some ({ count := if wasDeleted then t.count - 1 else t.count, root := blackenRoot root },
          deleted, wasDeleted)

/-- The function `deleteMax`; the first argument bounds the recursion depth. -/
def deleteMax : Nat → Node → Option (Node × Nat × Bool)
  | 0, _ => none
  | _ + 1, nil => some (nil, 0, false)
  | fuel + 1, node v l r b =>
    match (if isRed l then rotateRight (node v l r b) else some (node v l r b)) with
    | some (node v1 l1 r1 b1) =>
      match r1 with
      | nil => some (nil, v1, true)
      | node _ rl _ _ =>
        match (if !isRed r1 && !isRed rl then moveRedRight (node v1 l1 r1 b1)
               else some (node v1 l1 r1 b1)) with
        | some (node v2 l2 r2 b2) =>
          match deleteMax fuel r2 with
          | none => none
          | some (r3, deleted, wasDeleted) =>
            match fixUp (node v2 l2 r3 b2) with
            | none => none
            | some h3 => some (h3, deleted, wasDeleted)
        | _ => none
    | _ => none

def DeleteMax (t : LLRB) : Option (LLRB × Nat × Bool) :=
  match deleteMax (size t.root + 1) t.root with
  | none => none
  | some (root, deleted, wasDeleted) =>
    some ({ count := if wasDeleted then t.count - 1 else t.count, root := blackenRoot root },
          deleted, wasDeleted)

def getHeight (h : Node) (item : Nat) : Nat × Int :=
  match h with
  | nil => (0, 0)
  | node v l r _ =>
    if less item v then ((getHeight l item).1, (getHeight l item).2 + 1)
    else if less v item then ((getHeight r item).1, (getHeight r item).2 + 1)
    else (v, 0)

def GetHeight (t : LLRB) (key : Nat) : Nat × Int := getHeight t.root key

section Iterators

variable {σ : Type}

def ascendRange (h : Node) (inf sup : Nat) (iterator : σ → Nat → Bool × σ) (s : σ) :
    Bool × σ :=
  match h with
  | nil => (true, s)
  | node v l r _ =>
    if !less v sup then ascendRange l inf sup iterator s
    else if less v inf then ascendRange r inf sup iterator s
    else
      match ascendRange l inf sup iterator s with
      | (false, s1) => (false, s1)
      | (true, s1) =>
        match iterator s1 v with
        | (false, s2) => (false, s2)
        | (true, s2) => ascendRange r inf sup iterator s2

def AscendRange (t : LLRB) (greaterOrEqual lessThan : Nat) (iterator : σ → Nat → Bool × σ)
    (s : σ) : σ :=
  (ascendRange t.root greaterOrEqual lessThan iterator s).2

def ascendGreaterOrEqual (h : Node) (pivot : Nat) (iterator : σ → Nat → Bool × σ) (s : σ) :
    Bool × σ :=
  match h with
  | nil => (true, s)
  | node v l r _ =>
    if !less v pivot then
      match ascendGreaterOrEqual l pivot iterator s with
      | (false, s1) => (false, s1)
      | (true, s1) =>
        match iterator s1 v with
        | (false, s2) => (false, s2)
        | (true, s2) => ascendGreaterOrEqual r pivot iterator s2
    else ascendGreaterOrEqual r pivot iterator s

def AscendGreaterOrEqual (t : LLRB) (pivot : Nat) (iterator : σ → Nat → Bool × σ) (s : σ) : σ :=
  (ascendGreaterOrEqual t.root pivot iterator s).2

def ascendLessThan (h : Node) (pivot : Nat) (iterator : σ → Nat → Bool × σ) (s : σ) :
    Bool × σ :=
  match h with
  | nil => (true, s)
  | node v l _ _ =>
    match ascendLessThan l pivot iterator s with
    | (false, s1) => (false, s1)
    | (true, s1) =>
      match iterator s1 v with
      | (false, s2) => (false, s2)
      | (true, s2) =>
        if less v pivot then ascendLessThan l pivot iterator s2
        else (true, s2)

def AscendLessThan (t : LLRB) (pivot : Nat) (iterator : σ → Nat → Bool × σ) (s : σ) : σ :=
  (ascendLessThan t.root pivot iterator s).2

def descendLessOrEqual (h : Node) (pivot : Nat) (iterator : σ → Nat → Bool × σ) (s : σ) :
    Bool × σ :=
  match h with
  | nil => (true, s)
  | node v l r _ =>
    if less v pivot || !less pivot v then
      match descendLessOrEqual r pivot iterator s with
      | (false, s1) => (false, s1)
      | (true, s1) =>
        match iterator s1 v with
        | (false, s2) => (false, s2)
        | (true, s2) => descendLessOrEqual l pivot iterator s2
    else descendLessOrEqual l pivot iterator s

def DescendLessOrEqual (t : LLRB) (pivot : Nat) (iterator : σ → Nat → Bool × σ) (s : σ) : σ :=
  (descendLessOrEqual t.root pivot iterator s).2

/-- The callback `cb` instrumented to append every key it is invoked on to a log. -/
def logged (cb : σ → Nat → Bool × σ) : σ × List Nat → Nat → Bool × (σ × List Nat) :=
  fun s k => ((cb s.1 k).1, ((cb s.1 k).2, s.2 ++ [k]))

/-- A callback without state that always answers `true`. -/
def alwaysTrue : Unit → Nat → Bool × Unit := fun _ _ => (true, ())

/-- The keys of `ks`, in order, up to and including the first on which `cb` answers false. -/
def cutAtFirstFalse (cb : σ → Nat → Bool × σ) (s : σ) : List Nat → List Nat
  | [] => []
  | k :: ks => if (cb s k).1 then k :: cutAtFirstFalse cb (cb s k).2 ks else [k]

end Iterators

/-! ## Specification vocabulary -/

/-- The keys of the tree in symmetric (in-order) order. -/
def toList : Node → List Nat
  | nil => []
  | node v l r _ => toList l ++ v :: toList r

/-- Strict binary-search-tree order: at every node the keys of the left subtree are
strictly smaller and the keys of the right subtree strictly greater. -/
def ordered : Node → Prop
  | nil => True
  | node v l r _ =>
    ordered l ∧ ordered r ∧ (∀ x ∈ toList l, x < v) ∧ (∀ x ∈ toList r, v < x)

instance ordered.decidable : (h : Node) → Decidable (ordered h)
  | nil => isTrue trivial
  | node v l r _ =>
    match ordered.decidable l, ordered.decidable r with
    | isTrue hl, isTrue hr =>
      if h1 : ∀ x ∈ toList l, x < v then
        if h2 : ∀ x ∈ toList r, v < x then isTrue ⟨hl, hr, h1, h2⟩
        else isFalse fun h => h2 h.2.2.2
      else isFalse fun h => h1 h.2.2.1
    | isFalse hl, _ => isFalse fun h => hl h.1
    | _, isFalse hr => isFalse fun h => hr h.2.1

/-- No right link is red. -/
def noRedRight : Node → Bool
  | nil => true
  | node _ l r _ => !isRed r && noRedRight l && noRedRight r

/-- No two consecutive red links: a red node has no red child. -/
def noRedRed : Node → Bool
  | nil => true
  | node _ l r b => (b || (!isRed l && !isRed r)) && noRedRed l && noRedRed r

/-- Number of black nodes on the leftmost path from `h` to nil. -/
def blackHeight : Node → Nat
  | nil => 0
  | node _ l _ b => blackHeight l + (if b then 1 else 0)

/-- Every path from `h` to a nil link crosses the same number of black links. -/
def blackBalanced : Node → Bool
  | nil => true
  | node _ l r _ => blackBalanced l && blackBalanced r && blackHeight l == blackHeight r

/-- The LLRB invariants: strict BST order, no red right link, no two consecutive red links,
equal black height on every root-to-nil path, black root. -/
def isLLRB (h : Node) : Prop :=
  ordered h ∧ noRedRight h = true ∧ noRedRed h = true ∧ blackBalanced h = true ∧ isRed h = false

instance isLLRB.decidable (h : Node) : Decidable (isLLRB h) := by
  unfold isLLRB; exact inferInstance

/-- All keys fit in a `uint64`. -/
def inRange (h : Node) : Prop := ∀ x ∈ toList h, x < 2 ^ 64

instance inRange.decidable (h : Node) : Decidable (inRange h) := by
  unfold inRange; exact inferInstance

/-- Feeding the keys of a list to a callback, in order, until it answers false. -/
def feed {σ : Type} (cb : σ → Nat → Bool × σ) (s : σ) : List Nat → Bool × σ
  | [] => (true, s)
  | k :: ks =>
    match cb s k with
    | (false, s1) => (false, s1)
    | (true, s1) => feed cb s1 ks

/-- The keys a traversal hands to an always-true callback, in the order of the calls. -/
def visited (walk : (Unit × List Nat → Nat → Bool × (Unit × List Nat)) →
    Unit × List Nat → Unit × List Nat) : List Nat :=
  (walk (logged alwaysTrue) ((), [])).2

/-- The keys a traversal hands to the callback `cb` started in state `s`. -/
def invoked {σ : Type} (walk : (σ × List Nat → Nat → Bool × (σ × List Nat)) →
    σ × List Nat → σ × List Nat) (cb : σ → Nat → Bool × σ) (s : σ) : List Nat :=
  (walk (logged cb) (s, [])).2

/-! ## Auxiliary definitions for the proofs -/

/-- Keys handed out by `ascendGreaterOrEqual`, read off the recursion. -/
def geKeys : Node → Nat → List Nat
  | nil, _ => []
  | node v l r _, p => if !less v p then geKeys l p ++ v :: geKeys r p else geKeys r p

def leKeys : Node → Nat → List Nat
  | nil, _ => []
  | node v l r _, p =>
    if less v p || !less p v then leKeys r p ++ v :: leKeys l p else leKeys l p

def rangeKeys : Node → Nat → Nat → List Nat
  | nil, _, _ => []
  | node v l r _, inf, sup =>
    if !less v sup then rangeKeys l inf sup
    else if less v inf then rangeKeys r inf sup
    else rangeKeys l inf sup ++ v :: rangeKeys r inf sup

def ltKeys : Node → Nat → List Nat
  | nil, _ => []
  | node v l _ _, p => ltKeys l p ++ v :: (if less v p then ltKeys l p else [])

/-- What every restructuring step keeps: the in-order key sequence and the number of nodes. -/
def SameKeys (h h1 : Node) : Prop :=
  toList h1 = toList h ∧ size h1 = size h ∧ h1 ≠ nil

/-- The tree that `ReplaceOrInsert` builds from 4, 6, 1, 3. -/
def tree4613 : LLRB :=
  { count := 4,
    root := node 4 (node 3 (node 1 nil nil false) nil true) (node 6 nil nil true) true }

/-- Shape invariants of a subtree, the colour of its root left free: no red right link, no red
node with a red child, equal black height on all paths. -/
def wf (h : Node) : Prop :=
  noRedRight h = true ∧ noRedRed h = true ∧ blackBalanced h = true

/-- Entry states of the recursion of `delete` at a node: a red node, a black node with a red
left link, or (after a right rotation borrowed from the left sibling) a black node with a red
right link that is not above the key sought. -/
def DeleteState (k v : Nat) (l r : Node) (c : Bool) : Prop :=
  (c = false ∧ isRed l = false ∧ isRed r = false) ∨
  (c = true ∧ isRed l = true ∧ isRed r = false) ∨
  (c = true ∧ isRed l = false ∧ isRed r = true ∧ v ≤ k)

/-- What a call of `delete` on `h` with key `k` must deliver. -/
def DeletePost (k : Nat) (h : Node) (res : Option (Node × Bool)) : Prop :=
  ∃ o b, res = some (o, b) ∧ toList o = (toList h).filter (fun x => x != k) ∧
    (b = true ↔ k ∈ toList h) ∧ wf o ∧ blackHeight o = blackHeight h ∧
    (isRed h = false → isRed o = false)

/-- The specification of `delete` for all recursion entry states, at a given fuel. -/
def DeleteOK (k fuel : Nat) : Prop :=
  ∀ (v : Nat) (l r : Node) (c : Bool), size (node v l r c) < fuel → wf l → wf r →
    blackHeight l = blackHeight r → (toList (node v l r c)).Pairwise (· < ·) →
    DeleteState k v l r c → DeletePost k (node v l r c) (delete fuel (node v l r c) k)

/-- The node with the colour of its incoming link inverted. -/
def toggleRoot : Node → Node
  | nil => nil
  | node v l r c => node v l r (!c)

/-- The results of `n` successive calls `Delete(key)`, in order, and the final tree. -/
def DeleteRepeat (t : LLRB) (key : Nat) : Nat → Option (LLRB × List Bool)
  | 0 => some (t, [])
  | n + 1 =>
    match Delete t key with
    | none => none
    | some (t1, deleted) =>
      match DeleteRepeat t1 key n with
      | none => none
      | some (t2, ds) => some (t2, deleted :: ds)

/-- The tree that `ReplaceOrInsert` builds from 2, 1, 4, 3. -/
def tree2143 : LLRB :=
  { count := 4,
    root := node 2 (node 1 nil nil true) (node 4 (node 3 nil nil false) nil true) true }

/-- Number of links followed by a search for `k` from `h` until it meets `k` or a nil link. -/
def searchDepth (h : Node) (k : Nat) : Nat :=
  match h with
  | nil => 0
  | node v l r _ =>
    if k < v then searchDepth l k + 1
    else if v < k then searchDepth r k + 1
    else 0

/-- The statement that the node holding `k` is reached from `h` by following `d` links. -/
inductive AtDepth (k : Nat) : Node → Nat → Prop
  | here (l r : Node) (b : Bool) : AtDepth k (node k l r b) 0
  | left (v : Nat) (l r : Node) (b : Bool) (d : Nat) :
      AtDepth k l d → AtDepth k (node v l r b) (d + 1)
  | right (v : Nat) (l r : Node) (b : Bool) (d : Nat) :
      AtDepth k r d → AtDepth k (node v l r b) (d + 1)

/-- Entry states of the recursion of `deleteMax` at a node: a red node, a black node with a red
left link, or a black node with a red right link. -/
def MaxState (l r : Node) (c : Bool) : Prop :=
  (c = false ∧ isRed l = false ∧ isRed r = false) ∨
  (c = true ∧ isRed l = true ∧ isRed r = false) ∨
  (c = true ∧ isRed l = false ∧ isRed r = true)

/-- A call of one of the mutating operations of the tree. -/
inductive Op where
  | replaceOrInsert (k : Nat)
  | insertNoReplace (k : Nat)
  | delete (k : Nat)
  | deleteMin
  | deleteMax
  deriving DecidableEq

/-- The tree after one call; `none` if the call panics. -/
def Op.apply (t : LLRB) : Op → Option LLRB
  | Op.replaceOrInsert k => (ReplaceOrInsert t k).map (fun p => p.1)
  | Op.insertNoReplace k => InsertNoReplace t k
  | Op.delete k => (Delete t k).map (fun p => p.1)
  | Op.deleteMin => (DeleteMin t).map (fun p => p.1)
  | Op.deleteMax => (DeleteMax t).map (fun p => p.1)

/-- The tree after a sequence of calls, made one after the other. -/
def run (t : LLRB) : List Op → Option LLRB
  | [] => some t
  | op :: ops =>
    match Op.apply t op with
    | none => none
    | some t1 => run t1 ops

/-- The call is not an `InsertNoReplace`. -/
def Op.keepsKeysDistinct : Op → Bool
  | Op.insertNoReplace _ => false
  | _ => true

/-- Numbers of nodes on the paths from `h` down to each of its nil links. -/
def pathLengths : Node → List Nat
  | nil => [0]
  | node _ l r _ => (pathLengths l ++ pathLengths r).map (fun p => p + 1)

/-- The order that puts duplicates in the right subtree of an equal node: at every node the keys
of the left subtree are strictly smaller and the keys of the right subtree greater or equal. -/
def duplicatesRight : Node → Prop
  | nil => True
  | node v l r _ =>
    duplicatesRight l ∧ duplicatesRight r ∧ (∀ x ∈ toList l, x < v) ∧ (∀ x ∈ toList r, v ≤ x)

instance duplicatesRight.decidable : (h : Node) → Decidable (duplicatesRight h)
  | nil => isTrue trivial
  | node v l r _ =>
    match duplicatesRight.decidable l, duplicatesRight.decidable r with
    | isTrue hl, isTrue hr =>
      if h1 : ∀ x ∈ toList l, x < v then
        if h2 : ∀ x ∈ toList r, v ≤ x then isTrue ⟨hl, hr, h1, h2⟩
        else isFalse fun h => h2 h.2.2.2
      else isFalse fun h => h1 h.2.2.1
    | isFalse hl, _ => isFalse fun h => hl h.1
    | _, isFalse hr => isFalse fun h => hr h.2.1

/-- Non-strict binary-search-tree order: at every node the keys of the left subtree are smaller
or equal and the keys of the right subtree greater or equal. -/
def weaklyOrdered : Node → Prop
  | nil => True
  | node v l r _ =>
    weaklyOrdered l ∧ weaklyOrdered r ∧ (∀ x ∈ toList l, x ≤ v) ∧ (∀ x ∈ toList r, v ≤ x)

instance weaklyOrdered.decidable : (h : Node) → Decidable (weaklyOrdered h)
  | nil => isTrue trivial
  | node v l r _ =>
    match weaklyOrdered.decidable l, weaklyOrdered.decidable r with
    | isTrue hl, isTrue hr =>
      if h1 : ∀ x ∈ toList l, x ≤ v then
        if h2 : ∀ x ∈ toList r, v ≤ x then isTrue ⟨hl, hr, h1, h2⟩
        else isFalse fun h => h2 h.2.2.2
      else isFalse fun h => h1 h.2.2.1
    | isFalse hl, _ => isFalse fun h => hl h.1
    | _, isFalse hr => isFalse fun h => hr h.2.1

/-! ## Traversals as list iteration -/

theorem feed_append {σ : Type} (cb : σ → Nat → Bool × σ) (xs ys : List Nat) (s : σ) :
    feed cb s (xs ++ ys) =
      match feed cb s xs with
      | (false, s1) => (false, s1)
      | (true, s1) => feed cb s1 ys := by
  induction xs generalizing s with
  | nil => simp [feed]
  | cons x xs ih =>
    simp only [List.cons_append, feed]
    rcases h : cb s x with ⟨b, s1⟩
    cases b <;> simp [ih]

theorem ascendGreaterOrEqual_eq_feed {σ : Type} (cb : σ → Nat → Bool × σ) (h : Node) (p : Nat)
    (s : σ) : ascendGreaterOrEqual h p cb s = feed cb s (geKeys h p) := by
  induction h generalizing s with
  | nil => simp [ascendGreaterOrEqual, geKeys, feed]
  | node v l r b ihl ihr =>
    simp only [ascendGreaterOrEqual, geKeys]
    split
    · rw [feed_append, ihl]
      rcases h1 : feed cb s (geKeys l p) with ⟨b1, s1⟩
      cases b1
      · simp
      · simp only [feed]
        rcases h2 : cb s1 v with ⟨b2, s2⟩
        cases b2 <;> simp [ihr]
    · exact ihr s

theorem descendLessOrEqual_eq_feed {σ : Type} (cb : σ → Nat → Bool × σ) (h : Node) (p : Nat)
    (s : σ) : descendLessOrEqual h p cb s = feed cb s (leKeys h p) := by
  induction h generalizing s with
  | nil => simp [descendLessOrEqual, leKeys, feed]
  | node v l r b ihl ihr =>
    simp only [descendLessOrEqual, leKeys]
    split
    · rw [feed_append, ihr]
      rcases h1 : feed cb s (leKeys r p) with ⟨b1, s1⟩
      cases b1
      · simp
      · simp only [feed]
        rcases h2 : cb s1 v with ⟨b2, s2⟩
        cases b2 <;> simp [ihl]
    · exact ihl s

theorem ascendRange_eq_feed {σ : Type} (cb : σ → Nat → Bool × σ) (h : Node) (inf sup : Nat)
    (s : σ) : ascendRange h inf sup cb s = feed cb s (rangeKeys h inf sup) := by
  induction h generalizing s with
  | nil => simp [ascendRange, rangeKeys, feed]
  | node v l r b ihl ihr =>
    simp only [ascendRange, rangeKeys]
    split
    · exact ihl s
    · split
      · exact ihr s
      · rw [feed_append, ihl]
        rcases h1 : feed cb s (rangeKeys l inf sup) with ⟨b1, s1⟩
        cases b1
        · simp
        · simp only [feed]
          rcases h2 : cb s1 v with ⟨b2, s2⟩
          cases b2 <;> simp [ihr]

theorem ascendLessThan_eq_feed {σ : Type} (cb : σ → Nat → Bool × σ) (h : Node) (p : Nat)
    (s : σ) : ascendLessThan h p cb s = feed cb s (ltKeys h p) := by
  induction h generalizing s with
  | nil => simp [ascendLessThan, ltKeys, feed]
  | node v l r b ihl _ =>
    simp only [ascendLessThan, ltKeys]
    rw [feed_append, ihl]
    rcases h1 : feed cb s (ltKeys l p) with ⟨b1, s1⟩
    cases b1
    · simp
    · simp only [feed]
      rcases h2 : cb s1 v with ⟨b2, s2⟩
      cases b2
      · simp
      · by_cases hv : less v p = true
        · simp [hv, ihl]
        · simp [hv, feed]

theorem feed_logged {σ : Type} (cb : σ → Nat → Bool × σ) (ks : List Nat) (s : σ)
    (log : List Nat) :
    (feed (logged cb) (s, log) ks).2.2 = log ++ cutAtFirstFalse cb s ks := by
  induction ks generalizing s log with
  | nil => simp [feed, cutAtFirstFalse]
  | cons k ks ih =>
    simp only [feed, cutAtFirstFalse, logged]
    rcases h : cb s k with ⟨b, s1⟩
    cases b
    · simp
    · simp [ih]

theorem cutAtFirstFalse_alwaysTrue (ks : List Nat) (u : Unit) :
    cutAtFirstFalse alwaysTrue u ks = ks := by
  induction ks with
  | nil => rfl
  | cons k ks ih => simp [cutAtFirstFalse, alwaysTrue, ih]

theorem visited_ascendGreaterOrEqual (t : LLRB) (p : Nat) :
    visited (AscendGreaterOrEqual t p) = geKeys t.root p := by
  simp [visited, AscendGreaterOrEqual, ascendGreaterOrEqual_eq_feed, feed_logged,
    cutAtFirstFalse_alwaysTrue]

/-! ## Restructuring steps keep the keys -/

theorem SameKeys.trans {a b c : Node} (p : SameKeys a b) (q : SameKeys b c) : SameKeys a c :=
  ⟨q.1.trans p.1, q.2.1.trans p.2.1, q.2.2⟩

theorem SameKeys.refl_node (v : Nat) (l r : Node) (b : Bool) :
    SameKeys (node v l r b) (node v l r b) := ⟨rfl, rfl, by simp⟩

theorem isRed_eq_true {h : Node} (e : isRed h = true) :
    ∃ v l r, h = node v l r false := by
  cases h with
  | nil => simp [isRed] at e
  | node v l r b => cases b <;> simp [isRed] at e ⊢

theorem rotateLeft_sameKeys {h h1 : Node} (e : rotateLeft h = some h1) : SameKeys h h1 := by
  unfold rotateLeft at e
  split at e
  · split at e
    · cases e
    · cases e; simp [SameKeys, toList, size]; omega
  · cases e

theorem rotateRight_sameKeys {h h1 : Node} (e : rotateRight h = some h1) : SameKeys h h1 := by
  unfold rotateRight at e
  split at e
  · split at e
    · cases e
    · cases e; simp [SameKeys, toList, size]; omega
  · cases e

theorem flip_sameKeys {h h1 : Node} (e : flip h = some h1) : SameKeys h h1 := by
  unfold flip at e
  split at e
  · cases e; simp [SameKeys, toList, size]
  · cases e

theorem rotateLeft_some {h : Node} (e : isRed h.Right = true) : ∃ h1, rotateLeft h = some h1 := by
  cases h with
  | nil => simp [Node.Right, isRed] at e
  | node v l r b =>
    obtain ⟨rv, rl, rr, rfl⟩ := isRed_eq_true e
    simp [rotateLeft]

theorem rotateRight_some {h : Node} (e : isRed h.Left = true) : ∃ h1, rotateRight h = some h1 := by
  cases h with
  | nil => simp [Node.Left, isRed] at e
  | node v l r b =>
    obtain ⟨lv, ll, lr, rfl⟩ := isRed_eq_true e
    simp [rotateRight]

theorem flip_some {h : Node} (el : isRed h.Left = true) (er : isRed h.Right = true) :
    ∃ h1, flip h = some h1 := by
  cases h with
  | nil => simp [Node.Left, isRed] at el
  | node v l r b =>
    obtain ⟨lv, ll, lr, rfl⟩ := isRed_eq_true el
    obtain ⟨rv, rl, rr, rfl⟩ := isRed_eq_true er
    simp [flip]

theorem walkUpRot23_sameKeys (v : Nat) (l r : Node) (b : Bool) :
    ∃ h1, walkUpRot23 (node v l r b) = some h1 ∧ SameKeys (node v l r b) h1 := by
  unfold walkUpRot23
  have s1 : ∃ h1, (if (isRed r && !isRed l) = true then rotateLeft (node v l r b)
      else some (node v l r b)) = some h1 ∧ SameKeys (node v l r b) h1 := by
    split
    · rename_i c
      simp only [Bool.and_eq_true] at c
      obtain ⟨x, hx⟩ := rotateLeft_some (h := node v l r b) c.1
      exact ⟨x, hx, rotateLeft_sameKeys hx⟩
    · exact ⟨_, rfl, SameKeys.refl_node ..⟩
  obtain ⟨h1, e1, p1⟩ := s1
  simp only [e1]
  have s2 : ∃ h2, (if (isRed h1.Left && isRed h1.Left.Left) = true then rotateRight h1
      else some h1) = some h2 ∧ SameKeys h1 h2 := by
    split
    · rename_i c
      simp only [Bool.and_eq_true] at c
      obtain ⟨x, hx⟩ := rotateRight_some c.1
      exact ⟨x, hx, rotateRight_sameKeys hx⟩
    · exact ⟨_, rfl, rfl, rfl, p1.2.2⟩
  obtain ⟨h2, e2, p2⟩ := s2
  simp only [e2]
  split
  · rename_i c
    simp only [Bool.and_eq_true] at c
    obtain ⟨x, hx⟩ := flip_some c.1 c.2
    exact ⟨x, hx, (p1.trans p2).trans (flip_sameKeys hx)⟩
  · exact ⟨_, rfl, p1.trans p2⟩


theorem ordered_iff_pairwise (h : Node) : ordered h ↔ (toList h).Pairwise (· < ·) := by
  induction h with
  | nil => simp [ordered, toList]
  | node v l r b ihl ihr =>
    simp only [ordered, toList, List.pairwise_append, List.pairwise_cons, List.mem_cons, ihl, ihr]
    constructor
    · rintro ⟨hl, hr, h1, h2⟩
      refine ⟨hl, ⟨h2, hr⟩, ?_⟩
      rintro a ha c (rfl | hc)
      · exact h1 a ha
      · exact lt_trans (h1 a ha) (h2 c hc)
    · rintro ⟨hl, ⟨h2, hr⟩, h3⟩
      exact ⟨hl, hr, fun x hx => h3 x hx v (Or.inl rfl), h2⟩

theorem ordered_of_sameKeys {h h1 : Node} (p : SameKeys h h1) (o : ordered h) : ordered h1 := by
  rw [ordered_iff_pairwise] at o ⊢
  rw [p.1]; exact o

theorem replaceOrInsert_spec (h : Node) (k : Nat) (o : ordered h) :
    ∃ h1 b, replaceOrInsert h k = some (h1, b) ∧ ordered h1 ∧ h1 ≠ nil ∧
      (∀ x, x ∈ toList h1 ↔ x = k ∨ x ∈ toList h) ∧ (b = true ↔ k ∈ toList h) ∧
      size h1 = size h + (if b then 0 else 1) := by
  induction h with
  | nil => exact ⟨newNode k, false, rfl, by simp [newNode, ordered, toList], by simp [newNode],
      by simp [newNode, toList], by simp [toList], by simp [newNode, size]⟩
  | node v l r c ihl ihr =>
    obtain ⟨ol, or, hl, hr⟩ := o
    unfold replaceOrInsert
    by_cases c1 : k < v
    · obtain ⟨l1, b, e, o1, _, m1, hb, sz⟩ := ihl ol
      obtain ⟨h1, e1, p1⟩ := walkUpRot23_sameKeys v l1 r c
      refine ⟨h1, b, by simp [less, c1, e, e1], ?_, p1.2.2, ?_, ?_, ?_⟩
      · refine ordered_of_sameKeys p1 ⟨o1, or, ?_, hr⟩
        intro x hx
        rcases (m1 x).1 hx with rfl | hx
        · exact c1
        · exact hl x hx
      · intro x
        rw [p1.1]
        simp only [toList, List.mem_append, List.mem_cons, m1]
        constructor
        · rintro ((h | h) | h | h)
          exacts [Or.inl h, Or.inr (Or.inl h), Or.inr (Or.inr (Or.inl h)),
            Or.inr (Or.inr (Or.inr h))]
        · rintro (h | h | h | h)
          exacts [Or.inl (Or.inl h), Or.inl (Or.inr h), Or.inr (Or.inl h), Or.inr (Or.inr h)]
      · rw [hb]
        simp only [toList, List.mem_append, List.mem_cons]
        constructor
        · exact Or.inl
        · rintro (h | rfl | h)
          · exact h
          · exact absurd c1 (lt_irrefl _)
          · exact absurd (lt_trans (hr k h) c1) (lt_irrefl _)
      · rw [p1.2.1]; simp only [size, sz]; omega
    · by_cases c2 : v < k
      · obtain ⟨r1, b, e, o1, _, m1, hb, sz⟩ := ihr or
        obtain ⟨h1, e1, p1⟩ := walkUpRot23_sameKeys v l r1 c
        refine ⟨h1, b, by simp [less, c1, c2, e, e1], ?_, p1.2.2, ?_, ?_, ?_⟩
        · refine ordered_of_sameKeys p1 ⟨ol, o1, hl, ?_⟩
          intro x hx
          rcases (m1 x).1 hx with rfl | hx
          · exact c2
          · exact hr x hx
        · intro x
          rw [p1.1]
          simp only [toList, List.mem_append, List.mem_cons, m1]
          constructor
          · rintro (h | h | h | h)
            exacts [Or.inr (Or.inl h), Or.inr (Or.inr (Or.inl h)), Or.inl h,
              Or.inr (Or.inr (Or.inr h))]
          · rintro (h | h | h | h)
            exacts [Or.inr (Or.inr (Or.inl h)), Or.inl h, Or.inr (Or.inl h),
              Or.inr (Or.inr (Or.inr h))]
        · rw [hb]
          simp only [toList, List.mem_append, List.mem_cons]
          constructor
          · exact fun h => Or.inr (Or.inr h)
          · rintro (h | rfl | h)
            · exact absurd (lt_trans (hl k h) c2) (lt_irrefl _)
            · exact absurd c2 (lt_irrefl _)
            · exact h
        · rw [p1.2.1]; simp only [size, sz]; omega
      · have ek : k = v := by omega
        subst ek
        obtain ⟨h1, e1, p1⟩ := walkUpRot23_sameKeys k l r c
        have o2 : ordered (node k l r c) := ⟨ol, or, hl, hr⟩
        refine ⟨h1, true, ?_, ordered_of_sameKeys p1 o2, p1.2.2, ?_, ?_, ?_⟩
        · simp [less, e1]
        · intro x
          rw [p1.1]
          simp only [toList, List.mem_append, List.mem_cons]
          constructor
          · rintro (h | h | h)
            exacts [Or.inr (Or.inl h), Or.inl h, Or.inr (Or.inr (Or.inr h))]
          · rintro (h | h | h | h)
            exacts [Or.inr (Or.inl h), Or.inl h, Or.inr (Or.inl h), Or.inr (Or.inr h)]
        · simp [toList]
        · rw [p1.2.1]; simp

/-! ## Traversals on ordered trees, insertion -/

theorem geKeys_of_ordered (h : Node) (p : Nat) (o : ordered h) :
    geKeys h p = (toList h).filter (fun k => decide (p ≤ k)) := by
  induction h with
  | nil => rfl
  | node v l r b ihl ihr =>
    obtain ⟨ol, or, hl, hr⟩ := o
    simp only [geKeys, toList, List.filter_append, List.filter_cons, less, ihl ol, ihr or]
    by_cases c : v < p
    · have e : (toList l).filter (fun k => decide (p ≤ k)) = [] := by
        rw [List.filter_eq_nil_iff]
        intro x hx
        have := hl x hx
        simp; omega
      have c2 : ¬ p ≤ v := by omega
      simp [c, c2, e]
    · have c2 : p ≤ v := by omega
      simp [c, c2]

theorem leKeys_of_ordered (h : Node) (p : Nat) (o : ordered h) :
    leKeys h p = ((toList h).filter (fun k => decide (k ≤ p))).reverse := by
  induction h with
  | nil => rfl
  | node v l r b ihl ihr =>
    obtain ⟨ol, or, hl, hr⟩ := o
    simp only [leKeys, toList, List.filter_append, List.filter_cons, less, ihl ol, ihr or]
    by_cases c : v ≤ p
    · have c2 : (decide (v < p) || !decide (p < v)) = true := by
        simp; omega
      simp [c, c2]
    · have e : (toList r).filter (fun k => decide (k ≤ p)) = [] := by
        rw [List.filter_eq_nil_iff]
        intro x hx
        have := hr x hx
        simp; omega
      have c2 : ¬ ((decide (v < p) || !decide (p < v)) = true) := by
        simp; omega
      simp [c, c2, e]

theorem rangeKeys_of_ordered (h : Node) (inf sup : Nat) (o : ordered h) :
    rangeKeys h inf sup = (toList h).filter (fun k => decide (inf ≤ k) && decide (k < sup)) := by
  induction h with
  | nil => rfl
  | node v l r b ihl ihr =>
    obtain ⟨ol, or, hl, hr⟩ := o
    simp only [rangeKeys, toList, List.filter_append, List.filter_cons, less, ihl ol, ihr or]
    by_cases c1 : v < sup
    · by_cases c2 : v < inf
      · have e : (toList l).filter (fun k => decide (inf ≤ k) && decide (k < sup)) = [] := by
          rw [List.filter_eq_nil_iff]
          intro x hx
          have := hl x hx
          simp; omega
        have c3 : ¬ inf ≤ v := by omega
        simp [c1, c2, c3, e]
      · have c3 : inf ≤ v := by omega
        simp [c1, c2, c3]
    · have e : (toList r).filter (fun k => decide (inf ≤ k) && decide (k < sup)) = [] := by
        rw [List.filter_eq_nil_iff]
        intro x hx
        have := hr x hx
        simp; omega
      simp [c1, e]

theorem visited_descendLessOrEqual (t : LLRB) (p : Nat) :
    visited (DescendLessOrEqual t p) = leKeys t.root p := by
  simp [visited, DescendLessOrEqual, descendLessOrEqual_eq_feed, feed_logged,
    cutAtFirstFalse_alwaysTrue]

theorem visited_ascendRange (t : LLRB) (inf sup : Nat) :
    visited (AscendRange t inf sup) = rangeKeys t.root inf sup := by
  simp [visited, AscendRange, ascendRange_eq_feed, feed_logged, cutAtFirstFalse_alwaysTrue]

theorem visited_ascendLessThan (t : LLRB) (p : Nat) :
    visited (AscendLessThan t p) = ltKeys t.root p := by
  simp [visited, AscendLessThan, ascendLessThan_eq_feed, feed_logged, cutAtFirstFalse_alwaysTrue]

theorem sorted_toList {h : Node} (o : ordered h) : (toList h).Sorted (· < ·) :=
  (ordered_iff_pairwise h).1 o

/-- C6: on a strictly ordered tree, `AscendGreaterOrEqual(p, cb)` with an always-true callback
invokes `cb` on exactly the keys `>= p`, each once, in ascending order; on the tree built from
4, 6, 1, 3 the pivots 0, 3, 2 give [1,3,4,6], [3,4,6], [3,4,6]. -/
theorem C6_ascendGreaterOrEqual_visits (t : LLRB) (p : Nat) (o : ordered t.root) :
    visited (AscendGreaterOrEqual t p) = (toList t.root).filter (fun k => decide (p ≤ k)) ∧
    (visited (AscendGreaterOrEqual t p)).Sorted (· < ·) ∧
    (∀ k, k ∈ visited (AscendGreaterOrEqual t p) ↔ k ∈ toList t.root ∧ p ≤ k) ∧
    (∃ t4, ReplaceOrInsertBulk New [4, 6, 1, 3] = some t4 ∧
      InsertNoReplaceBulk New [4, 6, 1, 3] = some t4 ∧
      visited (AscendGreaterOrEqual t4 0) = [1, 3, 4, 6] ∧
      visited (AscendGreaterOrEqual t4 3) = [3, 4, 6] ∧
      visited (AscendGreaterOrEqual t4 2) = [3, 4, 6]) := by
  have e := geKeys_of_ordered t.root p o
  rw [visited_ascendGreaterOrEqual, e]
  refine ⟨rfl, (sorted_toList o).filter _, fun k => by simp, ?_⟩
  exact ⟨_, rfl, rfl, rfl, rfl, rfl⟩

/-- C6 at the tree built from 4, 6, 1, 3 with pivot 2. -/
theorem C6_ascendGreaterOrEqual_visits_witness :
    ordered tree4613.root ∧ visited (AscendGreaterOrEqual tree4613 2) = [3, 4, 6] :=
  ⟨by decide, (C6_ascendGreaterOrEqual_visits tree4613 2 (by decide)).1.trans (by decide)⟩

/-- C7: on a strictly ordered tree, `DescendLessOrEqual(p, cb)` with an always-true callback
invokes `cb` on exactly the keys `<= p`, each once, in descending order; on the tree built from
4, 6, 1, 3 the pivots 10, 4, 5 give [6,4,3,1], [4,3,1], [4,3,1]; with `p = 2^64-1` it yields
the reverse of `AscendGreaterOrEqual(0)`. -/
theorem C7_descendLessOrEqual_visits (t : LLRB) (p : Nat) (o : ordered t.root) :
    visited (DescendLessOrEqual t p) =
      ((toList t.root).filter (fun k => decide (k ≤ p))).reverse ∧
    (visited (DescendLessOrEqual t p)).Sorted (· > ·) ∧
    (∀ k, k ∈ visited (DescendLessOrEqual t p) ↔ k ∈ toList t.root ∧ k ≤ p) ∧
    (∃ t4, ReplaceOrInsertBulk New [4, 6, 1, 3] = some t4 ∧
      InsertNoReplaceBulk New [4, 6, 1, 3] = some t4 ∧
      visited (DescendLessOrEqual t4 10) = [6, 4, 3, 1] ∧
      visited (DescendLessOrEqual t4 4) = [4, 3, 1] ∧
      visited (DescendLessOrEqual t4 5) = [4, 3, 1]) ∧
    (inRange t.root → visited (DescendLessOrEqual t (2 ^ 64 - 1)) =
      (visited (AscendGreaterOrEqual t 0)).reverse) := by
  have e := leKeys_of_ordered t.root p o
  rw [visited_descendLessOrEqual, e]
  refine ⟨rfl, ?_, fun k => by simp, ⟨_, rfl, rfl, rfl, rfl, rfl⟩, ?_⟩
  · rw [List.Sorted, List.pairwise_reverse]
    exact (sorted_toList o).filter _
  · intro hr
    rw [visited_descendLessOrEqual, visited_ascendGreaterOrEqual, leKeys_of_ordered _ _ o,
      geKeys_of_ordered _ _ o]
    congr 1
    rw [List.filter_eq_self.2, List.filter_eq_self.2]
    · intro x _; simp
    · intro x hx
      have := hr x hx
      simp; omega

/-- C7 at the tree built from 4, 6, 1, 3 with pivot 5. -/
theorem C7_descendLessOrEqual_visits_witness :
    ordered tree4613.root ∧ inRange tree4613.root ∧
    visited (DescendLessOrEqual tree4613 5) = [4, 3, 1] ∧
    visited (DescendLessOrEqual tree4613 (2 ^ 64 - 1)) =
      (visited (AscendGreaterOrEqual tree4613 0)).reverse :=
  ⟨by decide, by decide,
    (C7_descendLessOrEqual_visits tree4613 5 (by decide)).1.trans (by decide),
    (C7_descendLessOrEqual_visits tree4613 5 (by decide)).2.2.2.2 (by decide)⟩

/-- C8: on a strictly ordered tree, `AscendRange(low, high, cb)` with an always-true callback
invokes `cb` on exactly the keys `k` with `low <= k < high`, each once, in ascending order,
nothing when `low >= high`; for keys 1..9, `AscendRange(3, 6)` gives [3,4,5]. -/
theorem C8_ascendRange_visits (t : LLRB) (low high : Nat) (o : ordered t.root) :
    visited (AscendRange t low high) =
      (toList t.root).filter (fun k => decide (low ≤ k) && decide (k < high)) ∧
    (visited (AscendRange t low high)).Sorted (· < ·) ∧
    (∀ k, k ∈ visited (AscendRange t low high) ↔ k ∈ toList t.root ∧ low ≤ k ∧ k < high) ∧
    (high ≤ low → visited (AscendRange t low high) = []) ∧
    (∃ t9, ReplaceOrInsertBulk New [1, 2, 3, 4, 5, 6, 7, 8, 9] = some t9 ∧
      visited (AscendRange t9 3 6) = [3, 4, 5]) := by
  have e := rangeKeys_of_ordered t.root low high o
  rw [visited_ascendRange, e]
  refine ⟨rfl, (sorted_toList o).filter _, fun k => by simp, ?_, ⟨_, rfl, rfl⟩⟩
  intro hle
  rw [List.filter_eq_nil_iff]
  intro x _
  simp; omega

/-- C8 at the tree built from 4, 6, 1, 3 with bounds 3 and 6. -/
theorem C8_ascendRange_visits_witness :
    ordered tree4613.root ∧ visited (AscendRange tree4613 3 6) = [3, 4] :=
  ⟨by decide, (C8_ascendRange_visits tree4613 3 6 (by decide)).1.trans (by decide)⟩

/-- C9 (what the code does): `ascendLessThan` calls the callback on a node before comparing the
node with the pivot and then re-enters the left subtree instead of the right one.  On the
one-key tree 5 with pivot 3 it visits [5]; on the tree built from 1, 2, 3 with pivot 10 it
visits [1, 2, 1], never reaching 3. -/
theorem C9_ascendLessThan_code :
    (∃ t, ReplaceOrInsertBulk New [5] = some t ∧ ordered t.root ∧
      visited (AscendLessThan t 3) = [5]) ∧
    (∃ t, ReplaceOrInsertBulk New [1, 2, 3] = some t ∧ ordered t.root ∧
      toList t.root = [1, 2, 3] ∧ visited (AscendLessThan t 10) = [1, 2, 1]) ∧
    (∀ (t : LLRB) (p : Nat), visited (AscendLessThan t p) = ltKeys t.root p) :=
  ⟨⟨_, rfl, by decide, rfl⟩, ⟨_, rfl, by decide, rfl, rfl⟩, visited_ascendLessThan⟩

theorem invoked_eq {σ : Type} (cb : σ → Nat → Bool × σ) (s : σ) (ks : List Nat)
    (walk : (σ × List Nat → Nat → Bool × (σ × List Nat)) → σ × List Nat → σ × List Nat)
    (e : walk (logged cb) (s, []) = (feed (logged cb) (s, []) ks).2) :
    invoked walk cb s = cutAtFirstFalse cb s ks := by
  simp [invoked, e, feed_logged]

/-- C10: for each of the four traversals, every tree, every bound and every callback, the keys
on which the callback is invoked are the keys visited with an always-true callback, cut off at
and including the first key on which the callback returns false. -/
theorem C10_early_termination {σ : Type} (t : LLRB) (p q : Nat) (cb : σ → Nat → Bool × σ)
    (s : σ) :
    invoked (AscendGreaterOrEqual t p) cb s =
      cutAtFirstFalse cb s (visited (AscendGreaterOrEqual t p)) ∧
    invoked (AscendRange t p q) cb s = cutAtFirstFalse cb s (visited (AscendRange t p q)) ∧
    invoked (AscendLessThan t p) cb s = cutAtFirstFalse cb s (visited (AscendLessThan t p)) ∧
    invoked (DescendLessOrEqual t p) cb s =
      cutAtFirstFalse cb s (visited (DescendLessOrEqual t p)) := by
  rw [visited_ascendGreaterOrEqual, visited_ascendRange, visited_ascendLessThan,
    visited_descendLessOrEqual]
  refine ⟨invoked_eq _ _ _ _ ?_, invoked_eq _ _ _ _ ?_, invoked_eq _ _ _ _ ?_,
    invoked_eq _ _ _ _ ?_⟩
  · simp [AscendGreaterOrEqual, ascendGreaterOrEqual_eq_feed]
  · simp [AscendRange, ascendRange_eq_feed]
  · simp [AscendLessThan, ascendLessThan_eq_feed]
  · simp [DescendLessOrEqual, descendLessOrEqual_eq_feed]

theorem setRootBlack_sameKeys {h : Node} (n : h ≠ nil) :
    ∃ h1, setRootBlack h = some h1 ∧ SameKeys h h1 ∧ isRed h1 = false := by
  cases h with
  | nil => exact absurd rfl n
  | node v l r b => exact ⟨_, rfl, ⟨rfl, rfl, by simp⟩, rfl⟩

theorem ReplaceOrInsert_spec (t : LLRB) (k : Nat) (o : ordered t.root) :
    ∃ t1 b, ReplaceOrInsert t k = some (t1, b) ∧ ordered t1.root ∧
      (∀ x, x ∈ toList t1.root ↔ x = k ∨ x ∈ toList t.root) ∧ (b = true ↔ k ∈ toList t.root) ∧
      size t1.root = size t.root + (if b then 0 else 1) ∧
      t1.count = (if b then t.count else t.count + 1) ∧ isRed t1.root = false := by
  obtain ⟨h1, b, e, o1, n1, m1, hb, sz⟩ := replaceOrInsert_spec t.root k o
  obtain ⟨h2, e2, p2, c2⟩ := setRootBlack_sameKeys n1
  refine ⟨{ count := if b then t.count else t.count + 1, root := h2 }, b,
    by simp only [ReplaceOrInsert, e, e2], ordered_of_sameKeys p2 o1, ?_, hb, ?_, rfl, c2⟩
  · intro x; simp only [p2.1, m1]
  · simp only [p2.2.1, sz]

/-- C2: on a strictly ordered tree, `ReplaceOrInsert(k)` returns true exactly when `k` was
already a key; when it returns false `Len()` grows by exactly 1 (for a count below the largest
`int`, where `t.count++` does not wrap around), when it returns true `Len()` is unchanged; the
key set afterwards is the old set with `k` added. -/
theorem C2_replaceOrInsert_result (t : LLRB) (k : Nat) (o : ordered t.root) :
    ∃ t1 b, ReplaceOrInsert t k = some (t1, b) ∧
      (b = true ↔ k ∈ toList t.root) ∧
      (b = false → Len t < maxInt → Len t1 = Len t + 1) ∧
      (b = true → Len t1 = Len t) ∧
      (∀ x, x ∈ toList t1.root ↔ x = k ∨ x ∈ toList t.root) ∧
      ordered t1.root := by
  obtain ⟨t1, b, e, o1, m1, hb, _, hc, _⟩ := ReplaceOrInsert_spec t k o
  refine ⟨t1, b, e, hb, ?_, ?_, m1, o1⟩
  · intro h _; simp [Len, hc, h]
  · intro h; simp [Len, hc, h]

/-- C2 at the tree built from 4, 6, 1, 3, whose count 4 is below the largest `int`, and the new
key 5. -/
theorem C2_replaceOrInsert_result_witness :
    ordered tree4613.root ∧ Len tree4613 < maxInt ∧
    ∃ t1 b, ReplaceOrInsert tree4613 5 = some (t1, b) ∧
      (b = true ↔ 5 ∈ toList tree4613.root) ∧
      (b = false → Len tree4613 < maxInt → Len t1 = Len tree4613 + 1) ∧
      (b = true → Len t1 = Len tree4613) ∧
      (∀ x, x ∈ toList t1.root ↔ x = 5 ∨ x ∈ toList tree4613.root) ∧
      ordered t1.root :=
  ⟨by decide, by decide, C2_replaceOrInsert_result tree4613 5 (by decide)⟩

theorem ReplaceOrInsertBulk_spec (ks : List Nat) (t : LLRB) (o : ordered t.root) :
    ∃ t1, ReplaceOrInsertBulk t ks = some t1 ∧ ordered t1.root ∧
      (∀ x, x ∈ toList t1.root ↔ x ∈ ks ∨ x ∈ toList t.root) := by
  induction ks generalizing t with
  | nil => exact ⟨t, rfl, o, by simp⟩
  | cons k ks ih =>
    obtain ⟨t1, b, e, o1, m1, _⟩ := ReplaceOrInsert_spec t k o
    obtain ⟨t2, e2, o2, m2⟩ := ih t1 o1
    refine ⟨t2, by simp only [ReplaceOrInsertBulk, e, e2], o2, ?_⟩
    intro x
    simp only [m2, m1, List.mem_cons]
    constructor
    · rintro (h | h | h)
      exacts [Or.inl (Or.inr h), Or.inl (Or.inl h), Or.inr h]
    · rintro ((h | h) | h)
      exacts [Or.inr (Or.inl h), Or.inl h, Or.inr (Or.inr h)]

/-- C1: for every finite sequence of keys, after `ReplaceOrInsert` of each key in turn starting
from the empty tree, `AscendGreaterOrEqual(0, cb)` with an always-true callback invokes `cb` on
exactly the distinct inserted keys, each once, in strictly increasing order. -/
theorem C1_insert_then_ascend (ks : List Nat) :
    ∃ t, ReplaceOrInsertBulk New ks = some t ∧
      (visited (AscendGreaterOrEqual t 0)).Sorted (· < ·) ∧
      (visited (AscendGreaterOrEqual t 0)).Nodup ∧
      (∀ k, k ∈ visited (AscendGreaterOrEqual t 0) ↔ k ∈ ks) ∧
      visited (AscendGreaterOrEqual t 0) = ks.toFinset.sort (· ≤ ·) := by
  obtain ⟨t, e, o, m⟩ := ReplaceOrInsertBulk_spec ks New trivial
  have hv : visited (AscendGreaterOrEqual t 0) = toList t.root := by
    rw [visited_ascendGreaterOrEqual, geKeys_of_ordered _ _ o, List.filter_eq_self]
    intro x _; simp
  have hs : (toList t.root).Sorted (· < ·) := sorted_toList o
  have hm : ∀ k, k ∈ toList t.root ↔ k ∈ ks := by
    intro k; rw [m]; simp [New, toList]
  refine ⟨t, e, hv ▸ hs, hv ▸ hs.nodup, hv ▸ hm, ?_⟩
  rw [hv]
  symm
  apply (List.eq_of_perm_of_sorted (r := (· ≤ ·)) ?_ (Finset.sort_sorted _ _) (hs.imp le_of_lt))
  apply (List.perm_ext_iff_of_nodup (Finset.sort_nodup _ _) hs.nodup).2
  intro a
  simp [hm]

/-! ## Shape invariants and the balancing primitives -/

theorem wf_nil : wf nil := ⟨rfl, rfl, rfl⟩

theorem wf_node (v : Nat) (l r : Node) (b : Bool) :
    wf (node v l r b) ↔ wf l ∧ wf r ∧ isRed r = false ∧ (b = true ∨ isRed l = false) ∧
      blackHeight l = blackHeight r := by
  simp only [wf, noRedRight, noRedRed, blackBalanced, Bool.and_eq_true, Bool.or_eq_true,
    Bool.not_eq_true', beq_iff_eq]
  constructor
  · rintro ⟨⟨⟨h1, h2⟩, h3⟩, ⟨⟨h4, h5⟩, h6⟩, ⟨h7, h8⟩, h9⟩
    refine ⟨⟨h2, h5, h7⟩, ⟨h3, h6, h8⟩, h1, ?_, h9⟩
    rcases h4 with h | h
    · exact Or.inl h
    · exact Or.inr h.1
  · rintro ⟨⟨h2, h5, h7⟩, ⟨h3, h6, h8⟩, h1, h4, h9⟩
    refine ⟨⟨⟨h1, h2⟩, h3⟩, ⟨⟨?_, h5⟩, h6⟩, ⟨h7, h8⟩, h9⟩
    rcases h4 with h | h
    · exact Or.inl h
    · exact Or.inr ⟨h, h1⟩

theorem blackHeight_node (v : Nat) (l r : Node) (b : Bool) :
    blackHeight (node v l r b) = blackHeight l + (if b then 1 else 0) := rfl

theorem blackHeight_red (v : Nat) (l r : Node) :
    blackHeight (node v l r false) = blackHeight l := rfl

theorem blackHeight_black (v : Nat) (l r : Node) :
    blackHeight (node v l r true) = blackHeight l + 1 := rfl

theorem isRed_node (v : Nat) (l r : Node) (b : Bool) : isRed (node v l r b) = !b := rfl

theorem isRed_nil : isRed nil = false := rfl

theorem Left_node (v : Nat) (l r : Node) (b : Bool) : (node v l r b).Left = l := rfl

theorem Right_node (v : Nat) (l r : Node) (b : Bool) : (node v l r b).Right = r := rfl

/-- A black node, or nil. -/
theorem isRed_eq_false {h : Node} (e : isRed h = false) :
    h = nil ∨ ∃ v l r, h = node v l r true := by
  cases h with
  | nil => exact Or.inl rfl
  | node v l r b => cases b <;> simp [isRed] at e ⊢

theorem eq_nil_of_blackHeight {h : Node} (w : wf h) (c : isRed h = false)
    (e : blackHeight h = 0) : h = nil := by
  rcases isRed_eq_false c with rfl | ⟨v, l, r, rfl⟩
  · rfl
  · simp [blackHeight] at e

theorem black_of_blackHeight {h : Node} (c : isRed h = false) (e : 0 < blackHeight h) :
    ∃ v l r, h = node v l r true := by
  rcases isRed_eq_false c with rfl | h
  · simp [blackHeight] at e
  · exact h

theorem fixUp_noop (v : Nat) (l r : Node) (b : Bool) (hr : isRed r = false)
    (hl : isRed l = false ∨ isRed l.Left = false) :
    fixUp (node v l r b) = some (node v l r b) := by
  rcases hl with hl | hl <;> simp [fixUp, hr, hl, Left_node, Right_node]

theorem fixUp_black (v : Nat) (l r : Node) (wl : wf l) (wr : wf r)
    (e : blackHeight l = blackHeight r) :
    ∃ o, fixUp (node v l r true) = some o ∧ wf o ∧ blackHeight o = blackHeight l + 1 ∧
      toList o = toList l ++ v :: toList r ∧
      (isRed l = false ∨ isRed r = false → isRed o = false) := by
  by_cases cr : isRed r = true
  · obtain ⟨rv, rl, rr, rfl⟩ := isRed_eq_true cr
    rw [wf_node] at wr
    obtain ⟨wrl, wrr, crr, crl, er⟩ := wr
    simp only [Bool.false_eq_true, false_or] at crl
    by_cases cl : isRed l = true
    · obtain ⟨lv, ll, lr, rfl⟩ := isRed_eq_true cl
      rw [wf_node] at wl
      obtain ⟨wll, wlr, clr, cll, el⟩ := wl
      simp only [Bool.false_eq_true, false_or] at cll
      refine ⟨node v (node lv ll lr true) (node rv rl rr true) false, ?_, ?_, ?_, ?_, ?_⟩
      · simp [fixUp, isRed_node, rotateLeft, rotateRight, flip, Left_node, Right_node]
      · simp only [blackHeight_red] at e
        simp only [wf_node, blackHeight_black, isRed_node]
        simp [wll, wlr, wrl, wrr, clr, crr, cll, crl, el, er]
        omega
      · simp [blackHeight]
      · simp [toList]
      · simp [isRed]
    · simp only [Bool.not_eq_true] at cl
      refine ⟨node rv (node v l rl false) rr true, ?_, ?_, ?_, ?_, ?_⟩
      · simp [fixUp, isRed_node, rotateLeft, rotateRight, flip, Left_node, Right_node, cl, crr]
      · simp only [blackHeight_red] at e
        simp only [wf_node, blackHeight_red, isRed_node]
        simp [wl, wrl, wrr, crr, crl, cl, er]
        omega
      · simp [blackHeight]
      · simp [toList]
      · simp [isRed]
  · simp only [Bool.not_eq_true] at cr
    have hl : isRed l = false ∨ isRed l.Left = false := by
      by_cases cl : isRed l = true
      · obtain ⟨lv, ll, lr, rfl⟩ := isRed_eq_true cl
        rw [wf_node] at wl
        right; simpa [Left_node] using wl.2.2.2.1
      · left; simpa using cl
    refine ⟨_, fixUp_noop v l r true cr hl, ?_, ?_, rfl, ?_⟩
    · simp [wf_node, wl, wr, cr, e]
    · simp [blackHeight_node]
    · simp [isRed_node]

theorem moveRedLeft_simple (v lv rv : Nat) (ll lr rl rr : Node) (lb rb c : Bool)
    (h : isRed rl = false) :
    moveRedLeft (node v (node lv ll lr lb) (node rv rl rr rb) c) =
      some (node v (node lv ll lr (!lb)) (node rv rl rr (!rb)) (!c)) := by
  simp [moveRedLeft, flip, Left_node, h]

theorem moveRedLeft_borrow (v lv rv cv : Nat) (ll lr cl cr rr : Node) (lb c : Bool) :
    moveRedLeft (node v (node lv ll lr lb) (node rv (node cv cl cr false) rr true) c) =
      some (node cv (node v (node lv ll lr (!lb)) cl true) (node rv cr rr true) c) := by
  simp [moveRedLeft, flip, Left_node, isRed_node, rotateRight, rotateLeft]

theorem moveRedRight_simple (v lv rv : Nat) (ll lr rl rr : Node) (lb rb c : Bool)
    (h : isRed ll = false) :
    moveRedRight (node v (node lv ll lr lb) (node rv rl rr rb) c) =
      some (node v (node lv ll lr (!lb)) (node rv rl rr (!rb)) (!c)) := by
  simp [moveRedRight, flip, Left_node, h]

theorem moveRedRight_borrow (v lv rv av : Nat) (al ar lr rl rr : Node) (rb c : Bool) :
    moveRedRight (node v (node lv (node av al ar false) lr true) (node rv rl rr rb) c) =
      some (node lv (node av al ar true) (node v lr (node rv rl rr (!rb)) true) c) := by
  simp [moveRedRight, flip, Left_node, isRed_node, rotateRight]

/-! ## deleteMin -/

theorem deleteMin_spec (fuel : Nat) : ∀ (v : Nat) (l r : Node) (c : Bool),
    size (node v l r c) < fuel → wf (node v l r c) → (c = false ∨ isRed l = true) →
    ∃ o m, deleteMin fuel (node v l r c) = some (o, m, true) ∧
      toList (node v l r c) = m :: toList o ∧ wf o ∧
      blackHeight o = blackHeight (node v l r c) ∧ (c = true → isRed o = false) := by
  induction fuel with
  | zero => intro v l r c hs; omega
  | succ f ih =>
    intro v l r c hs w st
    rw [wf_node] at w
    obtain ⟨wl, wr, cr, cl, e⟩ := w
    rcases l with _ | ⟨lv, ll, lr, lb⟩
    · -- the minimum is the node itself
      have hc : c = false := by simpa [isRed_nil] using st
      have hr : r = nil := eq_nil_of_blackHeight wr cr (by simpa [blackHeight] using e.symm)
      subst hc hr
      exact ⟨nil, v, by simp [deleteMin], by simp [toList], wf_nil, by simp [blackHeight], by simp⟩
    · have hsl : size (node lv ll lr lb) < f := by simp only [size] at hs ⊢; omega
      rw [wf_node] at wl
      obtain ⟨wll, wlr, clr, cll, el⟩ := wl
      cases lb
      · -- left link red: the node is black
        have hc : c = true := by simpa [isRed_node] using cl
        subst hc
        obtain ⟨o1, m, e1, t1, w1, b1, _⟩ := ih lv ll lr false hsl
          ((wf_node ..).2 ⟨wll, wlr, clr, cll, el⟩) (Or.inl rfl)
        obtain ⟨o, e2, w2, b2, t2, c2⟩ := fixUp_black v o1 r w1 wr (by rw [b1]; exact e)
        refine ⟨o, m, ?_, ?_, w2, ?_, fun _ => c2 (Or.inr cr)⟩
        · simp [deleteMin, isRed_node, e1, e2]
        · rw [t2]; simp only [toList] at t1 ⊢; rw [t1]; simp
        · rw [b2, b1]; simp [blackHeight_black]
      · -- left link black: the node is red
        have hc : c = false := by simpa [isRed_node] using st
        subst hc
        by_cases c3 : isRed ll = true
        · obtain ⟨o1, m, e1, t1, w1, b1, c1⟩ := ih lv ll lr true hsl
            ((wf_node ..).2 ⟨wll, wlr, clr, cll, el⟩) (Or.inr c3)
          have c1 := c1 rfl
          refine ⟨node v o1 r false, m, ?_, ?_, ?_, ?_, by simp⟩
          · simp [deleteMin, isRed_node, c3, e1, fixUp_noop v o1 r false cr (Or.inl c1)]
          · simp only [toList] at t1 ⊢; rw [t1]; simp
          · rw [wf_node]; exact ⟨w1, wr, cr, Or.inr c1, by rw [b1]; exact e⟩
          · simp [blackHeight_red, b1]
        · simp only [Bool.not_eq_true] at c3
          obtain ⟨rv, rl, rr, rfl⟩ := black_of_blackHeight cr
            (by rw [← e]; simp [blackHeight_black])
          rw [wf_node] at wr
          obtain ⟨wrl, wrr, crr, _, er⟩ := wr
          simp only [blackHeight_black, Nat.add_right_cancel_iff] at e
          by_cases c4 : isRed rl = true
          · obtain ⟨cv, cl', cr', rfl⟩ := isRed_eq_true c4
            rw [wf_node] at wrl
            obtain ⟨wcl, wcr, ccr, ccl, ec⟩ := wrl
            simp only [Bool.false_eq_true, false_or] at ccl
            simp only [blackHeight_red] at er e
            obtain ⟨o1, m, e1, t1, w1, b1, c1⟩ := ih v (node lv ll lr false) cl' true
              (by simp only [size] at hs ⊢; omega)
              ((wf_node ..).2 ⟨(wf_node ..).2 ⟨wll, wlr, clr, Or.inr c3, el⟩, wcl, ccl,
                Or.inl rfl, by simp only [blackHeight_red]; omega⟩) (Or.inr rfl)
            have c1 := c1 rfl
            refine ⟨node cv o1 (node rv cr' rr true) false, m, ?_, ?_, ?_, ?_, by simp⟩
            · simp [deleteMin, isRed_node, c3, moveRedLeft_borrow, e1,
                fixUp_noop cv o1 (node rv cr' rr true) false rfl (Or.inl c1)]
            · have t := congrArg (fun L => L ++ cv :: (toList cr' ++ rv :: toList rr)) t1
              simpa [toList] using t
            · rw [wf_node]
              refine ⟨w1, (wf_node ..).2 ⟨wcr, wrr, crr, Or.inl rfl, by omega⟩, rfl,
                Or.inr c1, ?_⟩
              rw [b1]; simp only [blackHeight_black, blackHeight_red]; omega
            · simp only [blackHeight_red, b1, blackHeight_black]
          · simp only [Bool.not_eq_true] at c4
            obtain ⟨o1, m, e1, t1, w1, b1, _⟩ := ih lv ll lr false
              (by simp only [size] at hs ⊢; omega)
              ((wf_node ..).2 ⟨wll, wlr, clr, Or.inr c3, el⟩) (Or.inl rfl)
            obtain ⟨o, e2, w2, b2, t2, _⟩ := fixUp_black v o1 (node rv rl rr false) w1
              ((wf_node ..).2 ⟨wrl, wrr, crr, Or.inr c4, er⟩)
              (by rw [b1]; simp only [blackHeight_red]; omega)
            refine ⟨o, m, ?_, ?_, w2, ?_, by simp⟩
            · simp [deleteMin, isRed_node, c3, moveRedLeft_simple _ _ _ _ _ _ _ _ _ _ c4, e1, e2]
            · rw [t2]; simp only [toList] at t1 ⊢; rw [t1]; simp
            · rw [b2, b1]; simp only [blackHeight_red, blackHeight_black]

/-! ## delete: key bookkeeping and the black node with a red left link -/

theorem filter_ne_of_not_mem {k : Nat} {L : List Nat} (h : k ∉ L) :
    L.filter (fun x => x != k) = L := by
  rw [List.filter_eq_self]
  intro a ha
  simp only [bne_iff_ne, ne_eq]
  rintro rfl
  exact h ha

theorem keys_left {k x : Nat} {L R : List Nat} (hp : (L ++ x :: R).Pairwise (· < ·))
    (hk : k < x) :
    (L ++ x :: R).filter (fun y => y != k) = L.filter (fun y => y != k) ++ x :: R ∧
      (k ∈ L ++ x :: R ↔ k ∈ L) := by
  rw [List.pairwise_append, List.pairwise_cons] at hp
  obtain ⟨_, ⟨hx, _⟩, _⟩ := hp
  have hR : k ∉ x :: R := by
    simp only [List.mem_cons, not_or]
    exact ⟨by omega, fun h => by have := hx k h; omega⟩
  refine ⟨by rw [List.filter_append, filter_ne_of_not_mem hR], ?_⟩
  rw [List.mem_append]
  exact ⟨fun h => h.resolve_right hR, Or.inl⟩

theorem keys_right {k x : Nat} {L R : List Nat} (hp : (L ++ x :: R).Pairwise (· < ·))
    (hk : x < k) :
    (L ++ x :: R).filter (fun y => y != k) = L ++ x :: R.filter (fun y => y != k) ∧
      (k ∈ L ++ x :: R ↔ k ∈ R) := by
  rw [List.pairwise_append, List.pairwise_cons] at hp
  obtain ⟨_, ⟨_, _⟩, hLR⟩ := hp
  have hL : k ∉ L := fun h => by have := hLR k h x (List.mem_cons_self _ _); omega
  have hx : (x != k) = true := by simp; omega
  refine ⟨by rw [List.filter_append, filter_ne_of_not_mem hL, List.filter_cons, hx]; rfl, ?_⟩
  simp only [List.mem_append, List.mem_cons]
  constructor
  · rintro (h | h | h)
    · exact absurd h hL
    · omega
    · exact h
  · exact fun h => Or.inr (Or.inr h)

theorem keys_mid {k : Nat} {L R : List Nat} (hp : (L ++ k :: R).Pairwise (· < ·)) :
    (L ++ k :: R).filter (fun y => y != k) = L ++ R := by
  rw [List.pairwise_append, List.pairwise_cons] at hp
  obtain ⟨_, ⟨hx, _⟩, hLR⟩ := hp
  have hL : k ∉ L := fun h => by have := hLR k h k (List.mem_cons_self _ _); omega
  have hR : k ∉ R := fun h => by have := hx k h; omega
  rw [List.filter_append, filter_ne_of_not_mem hL, List.filter_cons]
  simp [filter_ne_of_not_mem hR]

theorem lt_of_mem_left {v x : Nat} {L R : List Nat} (hp : (L ++ x :: R).Pairwise (· < ·))
    (hv : v ∈ L) : v < x :=
  (List.pairwise_append.1 hp).2.2 v hv x (List.mem_cons_self _ _)

theorem lt_of_mem_right {v x : Nat} {L R : List Nat} (hp : (L ++ x :: R).Pairwise (· < ·))
    (hv : v ∈ R) : x < v :=
  (List.pairwise_cons.1 (List.pairwise_append.1 hp).2.1).1 v hv

theorem pairwise_left {x : Nat} {L R : List Nat} (hp : (L ++ x :: R).Pairwise (· < ·)) :
    L.Pairwise (· < ·) := (List.pairwise_append.1 hp).1

theorem pairwise_right {x : Nat} {L R : List Nat} (hp : (L ++ x :: R).Pairwise (· < ·)) :
    R.Pairwise (· < ·) := (List.pairwise_cons.1 (List.pairwise_append.1 hp).2.1).2

theorem delete_nil (k f : Nat) : DeletePost k nil (delete (f + 1) nil k) :=
  ⟨nil, false, by simp [delete], by simp [toList], by simp [toList], wf_nil, rfl, fun _ => rfl⟩

/-- The method `delete` at a black node with a red left link. -/
theorem delete_blackRedLeft (k f : Nat) (ih : DeleteOK k f) (v lv : Nat) (ll lr r : Node)
    (hs : size (node v (node lv ll lr false) r true) < f + 1)
    (wl : wf (node lv ll lr false)) (wr : wf r)
    (e : blackHeight (node lv ll lr false) = blackHeight r)
    (hp : (toList (node v (node lv ll lr false) r true)).Pairwise (· < ·))
    (cr : isRed r = false) :
    DeletePost k (node v (node lv ll lr false) r true)
      (delete (f + 1) (node v (node lv ll lr false) r true) k) := by
  rw [wf_node] at wl
  obtain ⟨wll, wlr, clr, cll, el⟩ := wl
  simp only [Bool.false_eq_true, false_or] at cll
  simp only [blackHeight_red] at e
  by_cases hk : k < v
  · -- descend into the red left child
    obtain ⟨o1, b, e1, t1, m1, w1, b1, _⟩ := ih lv ll lr false
      (by simp only [size] at hs ⊢; omega) wll wlr el (pairwise_left hp)
      (Or.inl ⟨rfl, cll, clr⟩)
    obtain ⟨o, e2, w2, b2, t2, c2⟩ := fixUp_black v o1 r w1 wr (by rw [b1]; exact e)
    obtain ⟨k1, k2⟩ := keys_left hp hk
    refine ⟨o, b, ?_, ?_, ?_, w2, ?_, fun _ => c2 (Or.inr cr)⟩
    · simp [delete, less, hk, isRed_node, e1, e2]
    · rw [t2, t1]; exact k1.symm
    · rw [m1]; exact k2.symm
    · rw [b2, b1]; simp [blackHeight_black, blackHeight_red]
  · -- rotate right and descend into the old node, now red
    have hp1 : (toList ll ++ lv :: toList (node v lr r false)).Pairwise (· < ·) := by
      simpa [toList] using hp
    have hlv : lv < k := by
      have : lv < v := lt_of_mem_left hp (by simp [toList])
      omega
    obtain ⟨o1, b, e1, t1, m1, w1, b1, _⟩ := ih v lr r false
      (by simp only [size] at hs ⊢; omega) wlr wr (by omega) (pairwise_right hp1)
      (Or.inl ⟨rfl, clr, cr⟩)
    obtain ⟨o, e2, w2, b2, t2, c2⟩ := fixUp_black lv ll o1 wll w1
      (by rw [b1]; simp only [blackHeight_red]; exact el)
    obtain ⟨k1, k2⟩ := keys_right hp1 hlv
    have hl : toList (node v (node lv ll lr false) r true) =
        toList ll ++ lv :: toList (node v lr r false) := by simp [toList]
    refine ⟨o, b, ?_, ?_, ?_, w2, ?_, fun _ => c2 (Or.inl cll)⟩
    · simp [delete, less, hk, hlv, isRed_node, rotateRight, e1, e2]
    · rw [t2, t1, hl]; exact k1.symm
    · rw [m1, hl]; exact k2.symm
    · rw [b2]; simp [blackHeight_black, blackHeight_red]

/-- The method `delete` at a black node whose right link is red and whose key is not above `k`. -/
theorem delete_blackRedRight (k f : Nat) (ih : DeleteOK k f) (v rv : Nat) (l rl rr : Node)
    (hs : size (node v l (node rv rl rr false) true) < f + 1)
    (wl : wf l) (wr : wf (node rv rl rr false))
    (e : blackHeight l = blackHeight (node rv rl rr false))
    (hp : (toList (node v l (node rv rl rr false) true)).Pairwise (· < ·))
    (cl : isRed l = false) (hv : v ≤ k) :
    DeletePost k (node v l (node rv rl rr false) true)
      (delete (f + 1) (node v l (node rv rl rr false) true) k) := by
  have hsr : size (node rv rl rr false) < f := by simp only [size] at hs ⊢; omega
  have hp0 : (toList l ++ v :: toList (node rv rl rr false)).Pairwise (· < ·) := hp
  have hkv : ¬ k < v := by omega
  by_cases hk : v < k
  · have wr0 := wr
    rw [wf_node] at wr
    obtain ⟨wrl, wrr, crr, crl, er⟩ := wr
    simp only [Bool.false_eq_true, false_or] at crl
    obtain ⟨o1, b, e1, t1, m1, w1, b1, _⟩ := ih rv rl rr false hsr wrl wrr er
      (pairwise_right hp0) (Or.inl ⟨rfl, crl, crr⟩)
    obtain ⟨o, e2, w2, b2, t2, c2⟩ := fixUp_black v l o1 wl w1 (by rw [b1]; exact e)
    obtain ⟨k1, k2⟩ := keys_right hp0 hk
    refine ⟨o, b, ?_, ?_, ?_, w2, ?_, fun _ => c2 (Or.inl cl)⟩
    · simp [delete, less, hk, hkv, isRed_node, cl, e1, e2]
    · rw [t2, t1]; exact k1.symm
    · rw [m1]; exact k2.symm
    · rw [b2]; simp [blackHeight_black]
  · have hkv : k = v := by omega
    subst hkv
    obtain ⟨o1, m, e1, t1, w1, b1, _⟩ := deleteMin_spec f rv rl rr false hsr wr (Or.inl rfl)
    obtain ⟨o, e2, w2, b2, t2, c2⟩ := fixUp_black m l o1 wl w1 (by rw [b1]; exact e)
    refine ⟨o, true, ?_, ?_, ?_, w2, ?_, fun _ => c2 (Or.inl cl)⟩
    · simp [delete, less, isRed_node, cl, e1, e2]
    · rw [t2, ← t1]; exact (keys_mid hp0).symm
    · simp [toList]
    · rw [b2]; simp [blackHeight_black]

/-- The method `delete` at a red node when the key is below the node's key. -/
theorem delete_red_left (k f : Nat) (ih : DeleteOK k f) (v : Nat) (l r : Node)
    (hs : size (node v l r false) < f + 1) (wl : wf l) (wr : wf r)
    (e : blackHeight l = blackHeight r)
    (hp : (toList (node v l r false)).Pairwise (· < ·))
    (cl : isRed l = false) (cr : isRed r = false) (hk : k < v) :
    DeletePost k (node v l r false) (delete (f + 1) (node v l r false) k) := by
  have hp0 : (toList l ++ v :: toList r).Pairwise (· < ·) := hp
  obtain ⟨k1, k2⟩ := keys_left hp0 hk
  rcases isRed_eq_false cl with rfl | ⟨lv, ll, lr, rfl⟩
  · -- item not present
    refine ⟨node v nil r false, false, by simp [delete, less, hk], ?_, ?_, ?_, rfl, by simp [isRed_node]⟩
    · have : k ∉ toList (node v nil r false) := fun h => by
        have := k2.1 h
        simp [toList] at this
      exact (filter_ne_of_not_mem this).symm
    · simp only [Bool.false_eq_true, false_iff]
      intro h
      have := k2.1 h
      simp [toList] at this
    · rw [wf_node]; exact ⟨wl, wr, cr, Or.inr cl, e⟩
  · have wl0 := wl
    rw [wf_node] at wl
    obtain ⟨wll, wlr, clr, _, el⟩ := wl
    have hsl : size (node lv ll lr true) < f := by simp only [size] at hs ⊢; omega
    by_cases c3 : isRed ll = true
    · -- the left child is a 3-node
      obtain ⟨o1, b, e1, t1, m1, w1, b1, c1⟩ := ih lv ll lr true hsl wll wlr el
        (pairwise_left hp0) (Or.inr (Or.inl ⟨rfl, c3, clr⟩))
      have c1 := c1 rfl
      refine ⟨node v o1 r false, b, ?_, ?_, ?_, ?_, ?_, by simp [isRed_node]⟩
      · simp [delete, less, hk, isRed_node, c3, e1, fixUp_noop v o1 r false cr (Or.inl c1)]
      · show toList o1 ++ v :: toList r = _
        rw [t1]; exact k1.symm
      · rw [m1]; exact k2.symm
      · rw [wf_node]; exact ⟨w1, wr, cr, Or.inr c1, by rw [b1]; exact e⟩
      · simp only [blackHeight_red, b1]
    · simp only [Bool.not_eq_true] at c3
      obtain ⟨rv, rl, rr, rfl⟩ := black_of_blackHeight cr
        (by rw [← e]; simp [blackHeight_black])
      rw [wf_node] at wr
      obtain ⟨wrl, wrr, crr, _, er⟩ := wr
      simp only [blackHeight_black, Nat.add_right_cancel_iff] at e
      by_cases c4 : isRed rl = true
      · -- borrow from the right sibling
        obtain ⟨cv, cl', cr', rfl⟩ := isRed_eq_true c4
        rw [wf_node] at wrl
        obtain ⟨wcl, wcr, ccr, ccl, ec⟩ := wrl
        simp only [Bool.false_eq_true, false_or] at ccl
        simp only [blackHeight_red] at er e
        have hl : toList (node v (node lv ll lr true) (node rv (node cv cl' cr' false) rr true)
            false) = toList (node v (node lv ll lr false) cl' true) ++
              cv :: toList (node rv cr' rr true) := by simp [toList]
        have hp1 := hp
        rw [hl] at hp1
        have hcv : k < cv := by
          have : v < cv := lt_of_mem_left hp1 (by simp [toList])
          omega
        obtain ⟨k3, k4⟩ := keys_left hp1 hcv
        obtain ⟨o1, b, e1, t1, m1, w1, b1, c1⟩ := ih v (node lv ll lr false) cl' true
          (by simp only [size] at hs ⊢; omega)
          ((wf_node ..).2 ⟨wll, wlr, clr, Or.inr c3, el⟩) wcl
          (by simp only [blackHeight_red]; omega) (pairwise_left hp1)
          (Or.inr (Or.inl ⟨rfl, rfl, ccl⟩))
        have c1 := c1 rfl
        refine ⟨node cv o1 (node rv cr' rr true) false, b, ?_, ?_, ?_, ?_, ?_, by simp [isRed_node]⟩
        · simp [delete, less, hk, isRed_node, c3, moveRedLeft_borrow, e1,
            fixUp_noop cv o1 (node rv cr' rr true) false rfl (Or.inl c1)]
        · show toList o1 ++ cv :: toList (node rv cr' rr true) = _
          rw [t1, hl]; exact k3.symm
        · rw [m1, hl]; exact k4.symm
        · rw [wf_node]
          refine ⟨w1, (wf_node ..).2 ⟨wcr, wrr, crr, Or.inl rfl, by omega⟩, rfl, Or.inr c1, ?_⟩
          rw [b1]; simp only [blackHeight_black, blackHeight_red]; omega
        · simp only [blackHeight_red, b1, blackHeight_black]
      · -- both children become red
        simp only [Bool.not_eq_true] at c4
        obtain ⟨o1, b, e1, t1, m1, w1, b1, _⟩ := ih lv ll lr false
          (by simp only [size] at hs ⊢; omega) wll wlr el (pairwise_left hp0)
          (Or.inl ⟨rfl, c3, clr⟩)
        obtain ⟨o, e2, w2, b2, t2, _⟩ := fixUp_black v o1 (node rv rl rr false) w1
          ((wf_node ..).2 ⟨wrl, wrr, crr, Or.inr c4, er⟩)
          (by rw [b1]; simp only [blackHeight_red]; omega)
        refine ⟨o, b, ?_, ?_, ?_, w2, ?_, by simp [isRed_node]⟩
        · simp [delete, less, hk, isRed_node, c3,
            moveRedLeft_simple _ _ _ _ _ _ _ _ _ _ c4, e1, e2]
        · rw [t2, t1]; exact k1.symm
        · rw [m1]; exact k2.symm
        · rw [b2, b1]; simp only [blackHeight_red, blackHeight_black]

/-- The method `delete` at a red node without right child when the key is not below the node's key. -/
theorem delete_red_leaf (k f : Nat) (v : Nat) (hf : 0 < f) (hv : v ≤ k) :
    DeletePost k (node v nil nil false) (delete (f + 1) (node v nil nil false) k) := by
  have hkv : ¬ k < v := by omega
  obtain ⟨f1, rfl⟩ : ∃ f1, f = f1 + 1 := ⟨f - 1, by omega⟩
  by_cases hk : v < k
  · refine ⟨node v nil nil false, false, ?_, ?_, ?_, ?_, rfl, by simp [isRed_node]⟩
    · simp [delete, less, Left_node, hk, hkv, isRed_nil, fixUp_noop v nil nil false rfl (Or.inl rfl)]
    · have : (v != k) = true := by simp; omega
      simp [toList, List.filter_cons, this]
    · simp [toList]; omega
    · rw [wf_node]; exact ⟨wf_nil, wf_nil, rfl, Or.inr rfl, rfl⟩
  · have : k = v := by omega
    subst this
    exact ⟨nil, true, by simp [delete, less, Left_node, isRed_nil], by simp [toList], by simp [toList],
      wf_nil, rfl, by simp [isRed_node]⟩

/-- The method `delete` at a red node when the key is not below the node's key. -/
theorem delete_red_right (k f : Nat) (ih : DeleteOK k f) (v : Nat) (l r : Node)
    (hs : size (node v l r false) < f + 1) (wl : wf l) (wr : wf r)
    (e : blackHeight l = blackHeight r)
    (hp : (toList (node v l r false)).Pairwise (· < ·))
    (cl : isRed l = false) (cr : isRed r = false) (hv : v ≤ k) :
    DeletePost k (node v l r false) (delete (f + 1) (node v l r false) k) := by
  have hp0 : (toList l ++ v :: toList r).Pairwise (· < ·) := hp
  have hkv : ¬ k < v := by omega
  rcases isRed_eq_false cr with rfl | ⟨rv, rl, rr, rfl⟩
  · -- no right child, hence no left child
    have hl : l = nil := eq_nil_of_blackHeight wl cl (by simpa [blackHeight] using e)
    subst hl
    exact delete_red_leaf k f v (by simp only [size] at hs; omega) hv
  · have wr0 := wr
    rw [wf_node] at wr
    obtain ⟨wrl, wrr, crr, _, er⟩ := wr
    have hsr : size (node rv rl rr true) < f := by simp only [size] at hs ⊢; omega
    by_cases c4 : isRed rl = true
    · -- the right child is a 3-node
      by_cases hk : v < k
      · obtain ⟨k1, k2⟩ := keys_right hp0 hk
        obtain ⟨o1, b, e1, t1, m1, w1, b1, c1⟩ := ih rv rl rr true hsr wrl wrr er
          (pairwise_right hp0) (Or.inr (Or.inl ⟨rfl, c4, crr⟩))
        have c1 := c1 rfl
        refine ⟨node v l o1 false, b, ?_, ?_, ?_, ?_, rfl, by simp [isRed_node]⟩
        · simp [delete, less, Left_node, hk, hkv, cl, isRed_node, c4, e1,
            fixUp_noop v l o1 false c1 (Or.inl cl)]
        · show toList l ++ v :: toList o1 = _
          rw [t1]; exact k1.symm
        · rw [m1]; exact k2.symm
        · rw [wf_node]; exact ⟨wl, w1, c1, Or.inr cl, by rw [b1]; exact e⟩
      · have : k = v := by omega
        subst this
        obtain ⟨o1, m, e1, t1, w1, b1, c1⟩ := deleteMin_spec f rv rl rr true hsr wr0 (Or.inr c4)
        have c1 := c1 rfl
        refine ⟨node m l o1 false, true, ?_, ?_, ?_, ?_, rfl, by simp [isRed_node]⟩
        · simp [delete, less, Left_node, cl, isRed_node, c4, e1, fixUp_noop m l o1 false c1 (Or.inl cl)]
        · show toList l ++ m :: toList o1 = _
          rw [← t1]; exact (keys_mid hp0).symm
        · simp [toList]
        · rw [wf_node]; exact ⟨wl, w1, c1, Or.inr cl, by rw [b1]; exact e⟩
    · simp only [Bool.not_eq_true] at c4
      obtain ⟨lv, ll, lr, rfl⟩ := black_of_blackHeight cl (by rw [e]; simp [blackHeight_black])
      rw [wf_node] at wl
      obtain ⟨wll, wlr, clr, _, el⟩ := wl
      simp only [blackHeight_black, Nat.add_right_cancel_iff] at e
      by_cases c3 : isRed ll = true
      · -- borrow from the left sibling
        obtain ⟨av, al, ar, rfl⟩ := isRed_eq_true c3
        rw [wf_node] at wll
        obtain ⟨wal, war, car, cal, ea⟩ := wll
        simp only [Bool.false_eq_true, false_or] at cal
        simp only [blackHeight_red] at el e
        have hl : toList (node v (node lv (node av al ar false) lr true) (node rv rl rr true)
            false) = toList (node av al ar true) ++
              lv :: toList (node v lr (node rv rl rr false) true) := by simp [toList]
        have hp1 := hp
        rw [hl] at hp1
        have hlv : lv < k := by
          have : lv < v := lt_of_mem_left hp0 (by simp [toList])
          omega
        have hlk : ¬ k < lv := by omega
        obtain ⟨k3, k4⟩ := keys_right hp1 hlv
        obtain ⟨o1, b, e1, t1, m1, w1, b1, c1⟩ := ih v lr (node rv rl rr false) true
          (by simp only [size] at hs ⊢; omega) wlr
          ((wf_node ..).2 ⟨wrl, wrr, crr, Or.inr c4, er⟩)
          (by simp only [blackHeight_red]; omega) (pairwise_right hp1)
          (Or.inr (Or.inr ⟨rfl, clr, rfl, hv⟩))
        have c1 := c1 rfl
        refine ⟨node lv (node av al ar true) o1 false, b, ?_, ?_, ?_, ?_, ?_,
          by simp [isRed_node]⟩
        · simp [delete, less, Left_node, hkv, hlv, hlk, isRed_node, c4, moveRedRight_borrow, e1,
            fixUp_noop lv (node av al ar true) o1 false c1 (Or.inl rfl)]
        · show toList (node av al ar true) ++ lv :: toList o1 = _
          rw [t1, hl]; exact k3.symm
        · rw [m1, hl]; exact k4.symm
        · rw [wf_node]
          refine ⟨(wf_node ..).2 ⟨wal, war, car, Or.inl rfl, ea⟩, w1, c1, Or.inr rfl, ?_⟩
          rw [b1]; simp only [blackHeight_black]; omega
        · simp only [blackHeight_red, blackHeight_black]
      · -- both children become red
        simp only [Bool.not_eq_true] at c3
        have wl1 : wf (node lv ll lr false) := (wf_node ..).2 ⟨wll, wlr, clr, Or.inr c3, el⟩
        have wr1 : wf (node rv rl rr false) := (wf_node ..).2 ⟨wrl, wrr, crr, Or.inr c4, er⟩
        by_cases hk : v < k
        · obtain ⟨k1, k2⟩ := keys_right hp0 hk
          obtain ⟨o1, b, e1, t1, m1, w1, b1, _⟩ := ih rv rl rr false
            (by simp only [size] at hs ⊢; omega) wrl wrr er (pairwise_right hp0)
            (Or.inl ⟨rfl, c4, crr⟩)
          obtain ⟨o, e2, w2, b2, t2, _⟩ := fixUp_black v (node lv ll lr false) o1 wl1 w1
            (by rw [b1]; simp only [blackHeight_red]; omega)
          refine ⟨o, b, ?_, ?_, ?_, w2, ?_, by simp [isRed_node]⟩
          · simp [delete, less, Left_node, hk, hkv, isRed_node, c4,
              moveRedRight_simple _ _ _ _ _ _ _ _ _ _ c3, e1, e2]
          · rw [t2, t1]; exact k1.symm
          · rw [m1]; exact k2.symm
          · rw [b2]; simp only [blackHeight_red, blackHeight_black]
        · have : k = v := by omega
          subst this
          obtain ⟨o1, m, e1, t1, w1, b1, _⟩ := deleteMin_spec f rv rl rr false
            (by simp only [size] at hs ⊢; omega) wr1 (Or.inl rfl)
          obtain ⟨o, e2, w2, b2, t2, _⟩ := fixUp_black m (node lv ll lr false) o1 wl1 w1
            (by rw [b1]; simp only [blackHeight_red]; omega)
          refine ⟨o, true, ?_, ?_, ?_, w2, ?_, by simp [isRed_node]⟩
          · simp [delete, less, Left_node, isRed_node, c4,
              moveRedRight_simple _ _ _ _ _ _ _ _ _ _ c3, e1, e2]
          · rw [t2, ← t1]; exact (keys_mid hp0).symm
          · simp [toList]
          · rw [b2]; simp only [blackHeight_red, blackHeight_black]

/-! ## delete: all entry states, and the colour of the root -/

theorem delete_ok (k : Nat) : ∀ f, DeleteOK k f := by
  intro f
  induction f with
  | zero => intro v l r c hs; omega
  | succ f ih =>
    intro v l r c hs wl wr e hp st
    rcases st with ⟨rfl, cl, cr⟩ | ⟨rfl, cl, cr⟩ | ⟨rfl, cl, cr, hv⟩
    · by_cases hk : k < v
      · exact delete_red_left k f ih v l r hs wl wr e hp cl cr hk
      · exact delete_red_right k f ih v l r hs wl wr e hp cl cr (by omega)
    · obtain ⟨lv, ll, lr, rfl⟩ := isRed_eq_true cl
      exact delete_blackRedLeft k f ih v lv ll lr r hs wl wr e hp cr
    · obtain ⟨rv, rl, rr, rfl⟩ := isRed_eq_true cr
      exact delete_blackRedRight k f ih v rv l rl rr hs wl wr e hp cl hv

theorem rotateLeft_toggle (h : Node) :
    rotateLeft (toggleRoot h) = (rotateLeft h).map toggleRoot := by
  rcases h with _ | ⟨v, l, r, c⟩
  · rfl
  · rcases r with _ | ⟨rv, rl, rr, rb⟩
    · rfl
    · cases rb <;> rfl

theorem rotateRight_toggle (h : Node) :
    rotateRight (toggleRoot h) = (rotateRight h).map toggleRoot := by
  rcases h with _ | ⟨v, l, r, c⟩
  · rfl
  · rcases l with _ | ⟨lv, ll, lr, lb⟩
    · rfl
    · cases lb <;> rfl

theorem flip_toggle (h : Node) : flip (toggleRoot h) = (flip h).map toggleRoot := by
  rcases h with _ | ⟨v, l, r, c⟩
  · rfl
  · rcases l with _ | ⟨lv, ll, lr, lb⟩ <;> rcases r with _ | ⟨rv, rl, rr, rb⟩ <;> rfl

theorem Left_toggle (h : Node) : (toggleRoot h).Left = h.Left := by
  cases h <;> rfl

theorem Right_toggle (h : Node) : (toggleRoot h).Right = h.Right := by
  cases h <;> rfl

theorem fixUp_toggle (h : Node) : fixUp (toggleRoot h) = (fixUp h).map toggleRoot := by
  rcases h with _ | ⟨v, l, r, c⟩
  · rfl
  · have s1 : (if isRed r = true then rotateLeft (toggleRoot (node v l r c))
        else some (toggleRoot (node v l r c))) =
        (if isRed r = true then rotateLeft (node v l r c) else some (node v l r c)).map
          toggleRoot := by
      split
      · exact rotateLeft_toggle _
      · rfl
    show (match (if isRed r = true then rotateLeft (toggleRoot (node v l r c))
        else some (toggleRoot (node v l r c))) with
      | none => none
      | some h1 => _) = _
    rw [s1]
    simp only [fixUp]
    rcases (if isRed r = true then rotateLeft (node v l r c) else some (node v l r c)) with
      _ | h1
    · rfl
    · simp only [Option.map_some', Left_toggle]
      have s2 : (if (isRed h1.Left && isRed h1.Left.Left) = true then rotateRight (toggleRoot h1)
          else some (toggleRoot h1)) =
          (if (isRed h1.Left && isRed h1.Left.Left) = true then rotateRight h1
            else some h1).map toggleRoot := by
        split
        · exact rotateRight_toggle _
        · rfl
      rw [s2]
      rcases (if (isRed h1.Left && isRed h1.Left.Left) = true then rotateRight h1
          else some h1) with _ | h2
      · rfl
      · simp only [Option.map_some', Left_toggle, Right_toggle]
        split
        · exact flip_toggle _
        · rfl

theorem moveRedLeft_toggle (h : Node) :
    moveRedLeft (toggleRoot h) = (moveRedLeft h).map toggleRoot := by
  unfold moveRedLeft
  rw [flip_toggle]
  rcases flip h with _ | (_ | ⟨v, l, r, b⟩)
  · rfl
  · rfl
  · simp only [Option.map_some', toggleRoot]
    split
    · rcases rotateRight r with _ | r1
      · rfl
      · have e := rotateLeft_toggle (node v l r1 b)
        simp only [toggleRoot] at e
        simp only [e]
        rcases rotateLeft (node v l r1 b) with _ | h1
        · rfl
        · exact flip_toggle h1
    · rfl

theorem moveRedRight_toggle (h : Node) :
    moveRedRight (toggleRoot h) = (moveRedRight h).map toggleRoot := by
  unfold moveRedRight
  rw [flip_toggle]
  rcases flip h with _ | (_ | ⟨v, l, r, b⟩)
  · rfl
  · rfl
  · simp only [Option.map_some', toggleRoot]
    split
    · have e := rotateRight_toggle (node v l r b)
      simp only [toggleRoot] at e
      simp only [e]
      rcases rotateRight (node v l r b) with _ | h1
      · rfl
      · exact flip_toggle h1
    · rfl

/-- The colour of the node handed to `delete` only shows in the colour of the node returned. -/
theorem delete_toggle (f : Nat) (h : Node) (k : Nat) :
    delete (f + 1) (toggleRoot h) k =
      (delete (f + 1) h k).map (fun p => (toggleRoot p.1, p.2)) := by
  rcases h with _ | ⟨v, l, r, c⟩
  · rfl
  · simp only [toggleRoot, delete]
    split
    · -- the key is below
      rcases l with _ | ⟨lv, ll, lr, lb⟩
      · rfl
      · simp only
        have s1 : (if (!isRed (node lv ll lr lb) && !isRed ll) = true then
              moveRedLeft (node v (node lv ll lr lb) r (!c))
            else some (node v (node lv ll lr lb) r (!c))) =
            (if (!isRed (node lv ll lr lb) && !isRed ll) = true then
              moveRedLeft (node v (node lv ll lr lb) r c)
            else some (node v (node lv ll lr lb) r c)).map toggleRoot := by
          split
          · exact moveRedLeft_toggle (node v (node lv ll lr lb) r c)
          · rfl
        rw [s1]
        rcases (if (!isRed (node lv ll lr lb) && !isRed ll) = true then
              moveRedLeft (node v (node lv ll lr lb) r c)
            else some (node v (node lv ll lr lb) r c)) with _ | (_ | ⟨v1, l1, r1, b1⟩)
        · rfl
        · rfl
        · simp only [Option.map_some', toggleRoot]
          rcases delete f l1 k with _ | ⟨l2, d⟩
          · rfl
          · have e := fixUp_toggle (node v1 l2 r1 b1)
            simp only [toggleRoot] at e
            simp only [e]
            rcases fixUp (node v1 l2 r1 b1) with _ | h2 <;> rfl
    · -- the key is not below
      have s1 : (if isRed l = true then rotateRight (node v l r (!c))
          else some (node v l r (!c))) =
          (if isRed l = true then rotateRight (node v l r c) else some (node v l r c)).map
            toggleRoot := by
        split
        · exact rotateRight_toggle (node v l r c)
        · rfl
      rw [s1]
      rcases (if isRed l = true then rotateRight (node v l r c) else some (node v l r c)) with
        _ | (_ | ⟨v1, l1, r1, b1⟩)
      · rfl
      · rfl
      · simp only [Option.map_some', toggleRoot]
        split
        · rfl
        · have s2 : (if (decide (r1 ≠ nil) && !isRed r1 && !isRed r1.Left) = true then
                moveRedRight (node v1 l1 r1 (!b1))
              else some (node v1 l1 r1 (!b1))) =
              (if (decide (r1 ≠ nil) && !isRed r1 && !isRed r1.Left) = true then
                moveRedRight (node v1 l1 r1 b1)
              else some (node v1 l1 r1 b1)).map toggleRoot := by
            split
            · exact moveRedRight_toggle (node v1 l1 r1 b1)
            · rfl
          rw [s2]
          rcases (if (decide (r1 ≠ nil) && !isRed r1 && !isRed r1.Left) = true then
                moveRedRight (node v1 l1 r1 b1)
              else some (node v1 l1 r1 b1)) with _ | (_ | ⟨v2, l2, r2, b2⟩)
          · rfl
          · rfl
          · simp only [Option.map_some', toggleRoot]
            split
            · rcases deleteMin f r2 with _ | ⟨r3, v3, d⟩
              · rfl
              · simp only
                split
                · rfl
                · have e := fixUp_toggle (node v3 l2 r3 b2)
                  simp only [toggleRoot] at e
                  simp only [e]
                  rcases fixUp (node v3 l2 r3 b2) with _ | h3 <;> rfl
            · rcases delete f r2 k with _ | ⟨r3, d⟩
              · rfl
              · have e := fixUp_toggle (node v2 l2 r3 b2)
                simp only [toggleRoot] at e
                simp only [e]
                rcases fixUp (node v2 l2 r3 b2) with _ | h3 <;> rfl

/-! ## Delete on trees that satisfy the invariants -/

theorem isLLRB_iff (h : Node) :
    isLLRB h ↔ (toList h).Pairwise (· < ·) ∧ wf h ∧ isRed h = false := by
  simp only [isLLRB, wf, ordered_iff_pairwise]
  constructor
  · rintro ⟨a, b, c, d, e⟩; exact ⟨a, ⟨b, c, d⟩, e⟩
  · rintro ⟨a, ⟨b, c, d⟩, e⟩; exact ⟨a, b, c, d, e⟩

theorem length_toList (h : Node) : (toList h).length = size h := by
  induction h with
  | nil => rfl
  | node v l r b ihl ihr => simp [toList, size, ihl, ihr]; omega

theorem toList_toggleRoot (h : Node) : toList (toggleRoot h) = toList h := by
  cases h <;> rfl

theorem blackenRoot_toggleRoot (h : Node) : blackenRoot (toggleRoot h) = blackenRoot h := by
  cases h <;> rfl

theorem toList_blackenRoot (h : Node) : toList (blackenRoot h) = toList h := by
  cases h <;> rfl

theorem isRed_blackenRoot (h : Node) : isRed (blackenRoot h) = false := by
  cases h <;> rfl

theorem wf_blackenRoot {h : Node} (w : wf h) : wf (blackenRoot h) := by
  rcases h with _ | ⟨v, l, r, c⟩
  · exact wf_nil
  · rw [wf_node] at w
    obtain ⟨wl, wr, cr, _, e⟩ := w
    exact (wf_node ..).2 ⟨wl, wr, cr, Or.inl rfl, e⟩

/-- The method `delete` at the root of a tree that satisfies the invariants. -/
theorem delete_root (k : Nat) (h : Node) (hp : (toList h).Pairwise (· < ·)) (w : wf h)
    (c : isRed h = false) :
    ∃ o b, delete (size h + 1) h k = some (o, b) ∧
      toList (blackenRoot o) = (toList h).filter (fun x => x != k) ∧
      (b = true ↔ k ∈ toList h) ∧ wf (blackenRoot o) := by
  rcases isRed_eq_false c with rfl | ⟨v, l, r, rfl⟩
  · exact ⟨nil, false, rfl, rfl, by simp [toList], wf_nil⟩
  · rw [wf_node] at w
    obtain ⟨wl, wr, cr, _, e⟩ := w
    by_cases cl : isRed l = true
    · obtain ⟨o, b, e1, t1, m1, w1, _, _⟩ := delete_ok k _ v l r true (Nat.lt_succ_self _)
        wl wr e hp (Or.inr (Or.inl ⟨rfl, cl, cr⟩))
      exact ⟨o, b, e1, by rw [toList_blackenRoot, t1], m1, wf_blackenRoot w1⟩
    · simp only [Bool.not_eq_true] at cl
      obtain ⟨o, b, e1, t1, m1, w1, _, _⟩ := delete_ok k _ v l r false (Nat.lt_succ_self _)
        wl wr e hp (Or.inl ⟨rfl, cl, cr⟩)
      have e2 := delete_toggle (size (node v l r false)) (node v l r false) k
      rw [e1] at e2
      refine ⟨toggleRoot o, b, e2, ?_, m1, ?_⟩
      · rw [blackenRoot_toggleRoot, toList_blackenRoot, t1]; rfl
      · rw [blackenRoot_toggleRoot]; exact wf_blackenRoot w1

theorem Delete_spec (t : LLRB) (k : Nat) (h : isLLRB t.root) :
    ∃ t1 b, Delete t k = some (t1, b) ∧ isLLRB t1.root ∧
      toList t1.root = (toList t.root).filter (fun x => x != k) ∧
      (b = true ↔ k ∈ toList t.root) ∧
      t1.count = (if b then t.count - 1 else t.count) := by
  rw [isLLRB_iff] at h
  obtain ⟨hp, w, c⟩ := h
  obtain ⟨o, b, e1, t1, m1, w1⟩ := delete_root k t.root hp w c
  refine ⟨{ count := if b then t.count - 1 else t.count, root := blackenRoot o }, b, ?_, ?_,
    t1, m1, rfl⟩
  · simp only [Delete, e1]
  · rw [isLLRB_iff]
    refine ⟨?_, w1, isRed_blackenRoot o⟩
    show (toList (blackenRoot o)).Pairwise (· < ·)
    rw [t1]
    exact hp.filter _

/-- C3: on a tree satisfying the LLRB invariants, `Delete(k)` of a key the tree contains returns
true, `Len()` decreases by exactly 1 (for a count above the smallest `int`, where `t.count--`
does not wrap around), and the key set afterwards is the old key set with `k` removed. -/
theorem C3_delete_present (t : LLRB) (k : Nat) (h : isLLRB t.root) (hk : k ∈ toList t.root) :
    ∃ t1, Delete t k = some (t1, true) ∧ (minInt < Len t → Len t1 = Len t - 1) ∧
      (∀ x, x ∈ toList t1.root ↔ x ∈ toList t.root ∧ x ≠ k) ∧
      toList t1.root = (toList t.root).erase k := by
  obtain ⟨t1, b, e, l1, tl, hb, hc⟩ := Delete_spec t k h
  have hb1 : b = true := hb.2 hk
  subst hb1
  refine ⟨t1, e, fun _ => by simp [Len, hc], ?_, ?_⟩
  · intro x; rw [tl]; simp
  · rw [tl]
    have hn : (toList t.root).Nodup := ((isLLRB_iff _).1 h).1.imp (fun h => Nat.ne_of_lt h)
    rw [hn.erase_eq_filter]

/-- C3 at the tree built from 4, 6, 1, 3, whose count 4 is above the smallest `int`, deleting
4. -/
theorem C3_delete_present_witness :
    isLLRB tree4613.root ∧ 4 ∈ toList tree4613.root ∧ minInt < Len tree4613 ∧
    ∃ t1, Delete tree4613 4 = some (t1, true) ∧
      (minInt < Len tree4613 → Len t1 = Len tree4613 - 1) ∧
      (∀ x, x ∈ toList t1.root ↔ x ∈ toList tree4613.root ∧ x ≠ 4) ∧
      toList t1.root = (toList tree4613.root).erase 4 :=
  ⟨by decide, by decide, by decide, C3_delete_present tree4613 4 (by decide) (by decide)⟩

theorem DeleteRepeat_absent (k : Nat) (n : Nat) : ∀ (t : LLRB), isLLRB t.root →
    k ∉ toList t.root →
    ∃ t1, DeleteRepeat t k n = some (t1, List.replicate n false) ∧ isLLRB t1.root ∧
      Len t1 = Len t ∧ toList t1.root = toList t.root := by
  induction n with
  | zero => intro t h _; exact ⟨t, rfl, h, rfl, rfl⟩
  | succ n ih =>
    intro t h hk
    obtain ⟨t1, b, e, l1, tl, hb, hc⟩ := Delete_spec t k h
    have hb1 : b = false := by
      cases b
      · rfl
      · exact absurd (hb.1 rfl) hk
    subst hb1
    have tl1 : toList t1.root = toList t.root := by rw [tl]; exact filter_ne_of_not_mem hk
    obtain ⟨t2, e2, l2, c2, tl2⟩ := ih t1 l1 (by rw [tl1]; exact hk)
    refine ⟨t2, ?_, l2, ?_, by rw [tl2, tl1]⟩
    · simp only [DeleteRepeat, e, e2, List.replicate_succ]
    · rw [c2]; simp [Len, hc]

/-- C4: on a tree satisfying the LLRB invariants (the empty tree included), `Delete(k)` of a key
the tree does not contain returns false and leaves `Len()` and the ascending key sequence
unchanged; any number of repeated calls all return false with the same outcome. -/
theorem C4_delete_absent (t : LLRB) (k : Nat) (h : isLLRB t.root) (hk : k ∉ toList t.root) :
    (∃ t1, Delete t k = some (t1, false) ∧ Len t1 = Len t ∧ toList t1.root = toList t.root ∧
      visited (AscendGreaterOrEqual t1 0) = visited (AscendGreaterOrEqual t 0)) ∧
    (∀ n, ∃ tn, DeleteRepeat t k n = some (tn, List.replicate n false) ∧ Len tn = Len t ∧
      toList tn.root = toList t.root ∧
      visited (AscendGreaterOrEqual tn 0) = visited (AscendGreaterOrEqual t 0)) ∧
    (∃ t0, Delete New k = some (t0, false) ∧ Len t0 = 0 ∧ t0.root = nil) := by
  have hv : ∀ t1 : LLRB, isLLRB t1.root → toList t1.root = toList t.root →
      visited (AscendGreaterOrEqual t1 0) = visited (AscendGreaterOrEqual t 0) := by
    intro t1 h1 e1
    rw [visited_ascendGreaterOrEqual, visited_ascendGreaterOrEqual,
      geKeys_of_ordered _ _ h1.1, geKeys_of_ordered _ _ h.1, e1]
  refine ⟨?_, ?_, ⟨_, rfl, rfl, rfl⟩⟩
  · obtain ⟨t1, e, l1, c1, tl1⟩ := DeleteRepeat_absent k 1 t h hk
    simp only [DeleteRepeat] at e
    rcases hd : Delete t k with _ | ⟨t2, d⟩
    · simp [hd] at e
    · simp only [hd, Option.some.injEq, Prod.mk.injEq, List.replicate_one, List.cons.injEq,
        and_true] at e
      obtain ⟨rfl, rfl⟩ := e
      exact ⟨t2, rfl, c1, tl1, hv _ l1 tl1⟩
  · intro n
    obtain ⟨tn, e, l1, c1, tl1⟩ := DeleteRepeat_absent k n t h hk
    exact ⟨tn, e, c1, tl1, hv _ l1 tl1⟩

/-- C4 at the tree built from 4, 6, 1, 3 and the absent key 5. -/
theorem C4_delete_absent_witness :
    isLLRB tree4613.root ∧ 5 ∉ toList tree4613.root ∧
    ∃ t1, Delete tree4613 5 = some (t1, false) ∧ Len t1 = Len tree4613 ∧
      toList t1.root = toList tree4613.root ∧
      visited (AscendGreaterOrEqual t1 0) = visited (AscendGreaterOrEqual tree4613 0) :=
  ⟨by decide, by decide, (C4_delete_absent tree4613 5 (by decide) (by decide)).1⟩

/-- C5 fails as stated: on the tree built from 2, 1, 4, 3, which satisfies the LLRB
invariants, `Delete(0)` of the absent key 0 returns false but moves key 3 to the root. -/
theorem C5_shape_counterexample :
    ReplaceOrInsertBulk New [2, 1, 4, 3] = some tree2143 ∧ isLLRB tree2143.root ∧
    0 ∉ toList tree2143.root ∧
    Delete tree2143 0 = some (⟨4, node 3 (node 2 (node 1 nil nil false) nil true)
      (node 4 nil nil true) true⟩, false) ∧
    ¬ (∀ (t : LLRB) (k : Nat), isLLRB t.root → k ∉ toList t.root →
      ∃ t1 b, Delete t k = some (t1, b) ∧ t1.root = t.root) := by
  refine ⟨rfl, by decide, by decide, rfl, ?_⟩
  intro hall
  obtain ⟨t1, b, e, r⟩ := hall tree2143 0 (by decide) (by decide)
  have e0 : Delete tree2143 0 = some (⟨4, node 3 (node 2 (node 1 nil nil false) nil true)
      (node 4 nil nil true) true⟩, false) := rfl
  rw [e0] at e
  simp only [Option.some.injEq, Prod.mk.injEq] at e
  obtain ⟨rfl, _⟩ := e
  revert r
  decide

/-- C5 amended: on a tree satisfying the LLRB invariants, `Delete(k)` of a key the tree does
not contain keeps the in-order key sequence and the number of nodes, and the tree satisfies the
LLRB invariants again; the shape itself may be rebalanced. -/
theorem C5_absent_keeps_keys (t : LLRB) (k : Nat) (h : isLLRB t.root)
    (hk : k ∉ toList t.root) :
    ∃ t1, Delete t k = some (t1, false) ∧ toList t1.root = toList t.root ∧
      size t1.root = size t.root ∧ isLLRB t1.root := by
  obtain ⟨t1, b, e, l1, tl, hb, _⟩ := Delete_spec t k h
  have hb1 : b = false := by
    cases b
    · rfl
    · exact absurd (hb.1 rfl) hk
  subst hb1
  have tl1 : toList t1.root = toList t.root := by rw [tl]; exact filter_ne_of_not_mem hk
  refine ⟨t1, e, tl1, ?_, l1⟩
  rw [← length_toList, ← length_toList, tl1]

/-- C5 amended, at the tree built from 2, 1, 4, 3 and the absent key 0. -/
theorem C5_absent_keeps_keys_witness :
    isLLRB tree2143.root ∧ 0 ∉ toList tree2143.root ∧
    ∃ t1, Delete tree2143 0 = some (t1, false) ∧ toList t1.root = toList tree2143.root ∧
      size t1.root = size tree2143.root ∧ isLLRB t1.root :=
  ⟨by decide, by decide, C5_absent_keeps_keys tree2143 0 (by decide) (by decide)⟩

/-! ## The recursion fuel is adequate -/

theorem moveRedLeft_sameKeys {h h1 : Node} (e : moveRedLeft h = some h1) : SameKeys h h1 := by
  unfold moveRedLeft at e
  rcases hf : flip h with _ | (_ | ⟨v, l, r, b⟩)
  · simp [hf] at e
  · simp [hf] at e
  · have p1 := flip_sameKeys hf
    simp only [hf] at e
    split at e
    · rcases hr : rotateRight r with _ | r1
      · simp [hr] at e
      · simp only [hr] at e
        have p2 := rotateRight_sameKeys hr
        have p3 : SameKeys (node v l r b) (node v l r1 b) :=
          ⟨by simp [toList, p2.1], by simp [size, p2.2.1], by simp⟩
        rcases hl : rotateLeft (node v l r1 b) with _ | h2
        · simp [hl] at e
        · simp only [hl] at e
          exact ((p1.trans p3).trans (rotateLeft_sameKeys hl)).trans (flip_sameKeys e)
    · cases e; exact p1

theorem moveRedRight_sameKeys {h h1 : Node} (e : moveRedRight h = some h1) : SameKeys h h1 := by
  unfold moveRedRight at e
  rcases hf : flip h with _ | (_ | ⟨v, l, r, b⟩)
  · simp [hf] at e
  · simp [hf] at e
  · have p1 := flip_sameKeys hf
    simp only [hf] at e
    split at e
    · rcases hr : rotateRight (node v l r b) with _ | h2
      · simp [hr] at e
      · simp only [hr] at e
        exact (p1.trans (rotateRight_sameKeys hr)).trans (flip_sameKeys e)
    · cases e; exact p1

/-- With more fuel than nodes, the result of `deleteMin` does not depend on the fuel. -/
theorem deleteMin_fuel (f : Nat) : ∀ (g : Nat) (h : Node), size h < f → size h < g →
    deleteMin f h = deleteMin g h := by
  induction f with
  | zero => intro g h hf; omega
  | succ f ih =>
    intro g h hf hg
    obtain ⟨g, rfl⟩ : ∃ g1, g = g1 + 1 := ⟨g - 1, by omega⟩
    rcases h with _ | ⟨v, l, r, b⟩
    · rfl
    · rcases l with _ | ⟨lv, ll, lr, lb⟩
      · rfl
      · simp only [deleteMin]
        rcases hm : (if (!isRed (node lv ll lr lb) && !isRed ll) = true then
            moveRedLeft (node v (node lv ll lr lb) r b)
          else some (node v (node lv ll lr lb) r b)) with _ | (_ | ⟨v1, l1, r1, b1⟩)
        · rfl
        · rfl
        · have hsz : size (node v1 l1 r1 b1) = size (node v (node lv ll lr lb) r b) := by
            split at hm
            · exact (moveRedLeft_sameKeys hm).2.1
            · cases hm; rfl
          simp only
          rw [ih g l1 (by simp only [size] at hsz hf ⊢; omega)
            (by simp only [size] at hsz hg ⊢; omega)]

/-- With more fuel than nodes, the result of `delete` does not depend on the fuel. -/
theorem delete_fuel (k : Nat) (f : Nat) : ∀ (g : Nat) (h : Node), size h < f → size h < g →
    delete f h k = delete g h k := by
  induction f with
  | zero => intro g h hf; omega
  | succ f ih =>
    intro g h hf hg
    obtain ⟨g, rfl⟩ : ∃ g1, g = g1 + 1 := ⟨g - 1, by omega⟩
    rcases h with _ | ⟨v, l, r, b⟩
    · rfl
    · simp only [delete]
      split
      · rcases l with _ | ⟨lv, ll, lr, lb⟩
        · rfl
        · simp only
          rcases hm : (if (!isRed (node lv ll lr lb) && !isRed ll) = true then
              moveRedLeft (node v (node lv ll lr lb) r b)
            else some (node v (node lv ll lr lb) r b)) with _ | (_ | ⟨v1, l1, r1, b1⟩)
          · rfl
          · rfl
          · have hsz : size (node v1 l1 r1 b1) = size (node v (node lv ll lr lb) r b) := by
              split at hm
              · exact (moveRedLeft_sameKeys hm).2.1
              · cases hm; rfl
            simp only
            rw [ih g l1 (by simp only [size] at hsz hf ⊢; omega)
              (by simp only [size] at hsz hg ⊢; omega)]
      · rcases hm : (if isRed l = true then rotateRight (node v l r b)
            else some (node v l r b)) with _ | (_ | ⟨v1, l1, r1, b1⟩)
        · rfl
        · rfl
        · have hsz : size (node v1 l1 r1 b1) = size (node v l r b) := by
            split at hm
            · exact (rotateRight_sameKeys hm).2.1
            · cases hm; rfl
          simp only
          split
          · rfl
          · rcases hm2 : (if (decide (r1 ≠ nil) && !isRed r1 && !isRed r1.Left) = true then
                moveRedRight (node v1 l1 r1 b1)
              else some (node v1 l1 r1 b1)) with _ | (_ | ⟨v2, l2, r2, b2⟩)
            · rfl
            · rfl
            · have hsz2 : size (node v2 l2 r2 b2) = size (node v1 l1 r1 b1) := by
                split at hm2
                · exact (moveRedRight_sameKeys hm2).2.1
                · cases hm2; rfl
              simp only
              rw [ih g r2 (by simp only [size] at hsz hsz2 hf ⊢; omega)
                  (by simp only [size] at hsz hsz2 hg ⊢; omega),
                deleteMin_fuel f g r2 (by simp only [size] at hsz hsz2 hf ⊢; omega)
                  (by simp only [size] at hsz hsz2 hg ⊢; omega)]

/-! ## Get, Has and GetHeight -/

theorem getLoop_of_ordered (h : Node) (k : Nat) (o : ordered h) :
    getLoop h k = if k ∈ toList h then (k, true) else (0, false) := by
  induction h with
  | nil => simp [getLoop, toList]
  | node v l r b ihl ihr =>
    obtain ⟨ol, or, hl, hr⟩ := o
    simp only [getLoop, less, toList, List.mem_append, List.mem_cons]
    by_cases c1 : k < v
    · have h1 : ¬ k = v := by omega
      have h2 : k ∉ toList r := fun h => by have := hr k h; omega
      simp [c1, ihl ol, h1, h2]
    · by_cases c2 : v < k
      · have h1 : ¬ k = v := by omega
        have h2 : k ∉ toList l := fun h => by have := hl k h; omega
        simp [c1, c2, ihr or, h1, h2]
      · have h1 : k = v := by omega
        simp [c1, c2, h1]

theorem getHeight_eq (h : Node) (k : Nat) :
    (getHeight h k).2 = (searchDepth h k : Int) := by
  induction h with
  | nil => simp [getHeight, searchDepth]
  | node v l r b ihl ihr =>
    simp only [getHeight, searchDepth, less]
    by_cases c1 : k < v
    · simp [c1, ihl]
    · by_cases c2 : v < k
      · simp [c1, c2, ihr]
      · simp [c1, c2]

theorem getHeight_absent (h : Node) (k : Nat) (hk : k ∉ toList h) :
    (getHeight h k).1 = 0 := by
  induction h with
  | nil => simp [getHeight]
  | node v l r b ihl ihr =>
    simp only [toList, List.mem_append, List.mem_cons, not_or] at hk
    simp only [getHeight, less]
    by_cases c1 : k < v
    · simp [c1, ihl hk.1]
    · by_cases c2 : v < k
      · simp [c1, c2, ihr hk.2.2]
      · exact absurd (by omega : k = v) hk.2.1

theorem getHeight_present (h : Node) (k : Nat) (o : ordered h) (hk : k ∈ toList h) :
    (getHeight h k).1 = k ∧ AtDepth k h (searchDepth h k) := by
  induction h with
  | nil => simp [toList] at hk
  | node v l r b ihl ihr =>
    obtain ⟨ol, or, hl, hr⟩ := o
    simp only [toList, List.mem_append, List.mem_cons] at hk
    simp only [getHeight, searchDepth, less]
    by_cases c1 : k < v
    · have hkl : k ∈ toList l := by
        rcases hk with h | h | h
        · exact h
        · omega
        · have := hr k h; omega
      simp only [c1, decide_True, if_true]
      exact ⟨(ihl ol hkl).1, AtDepth.left _ _ _ _ _ (ihl ol hkl).2⟩
    · by_cases c2 : v < k
      · have hkr : k ∈ toList r := by
          rcases hk with h | h | h
          · have := hl k h; omega
          · omega
          · exact h
        simp only [c1, c2, decide_True, decide_False, if_true, Bool.false_eq_true, if_false]
        exact ⟨(ihr or hkr).1, AtDepth.right _ _ _ _ _ (ihr or hkr).2⟩
      · have e : k = v := by omega
        subst e
        simp only [c1, decide_False, Bool.false_eq_true, if_false]
        exact ⟨trivial, AtDepth.here _ _ _⟩

/-- C13: on a strictly ordered tree `Get(k)` returns `(k, true)` if `k` is a key of the tree and
`(0, false)` otherwise, and `Has(k)` is the boolean of `Get(k)`; `Has(k)` is true right after
`ReplaceOrInsert(k)` and, on a tree satisfying the LLRB invariants, false right after
`Delete(k)`. -/
theorem C13_get_has (t : LLRB) (k : Nat) (o : ordered t.root) :
    (k ∈ toList t.root → Get t k = (k, true)) ∧
    (k ∉ toList t.root → Get t k = (0, false)) ∧
    Has t k = (Get t k).2 ∧
    (∃ t1 b, ReplaceOrInsert t k = some (t1, b) ∧ Has t1 k = true) ∧
    (isLLRB t.root → ∃ t1 b, Delete t k = some (t1, b) ∧ Has t1 k = false) ∧
    (∃ t1 t2 t3 t4, ReplaceOrInsert New 1 = some (t1, false) ∧
      ReplaceOrInsert t1 1 = some (t2, true) ∧ Len t2 = 1 ∧ Has t2 1 = true ∧
      Delete t2 1 = some (t3, true) ∧ Len t3 = 0 ∧ Has t3 1 = false ∧
      Delete t3 1 = some (t4, false) ∧ Len t4 = 0 ∧ Has t4 1 = false) := by
  have hg := getLoop_of_ordered t.root k o
  refine ⟨fun h => by simp [Get, hg, h], fun h => by simp [Get, hg, h], rfl, ?_, ?_,
    ⟨_, _, _, _, rfl, rfl, rfl, rfl, rfl, rfl, rfl, rfl, rfl, rfl⟩⟩
  · obtain ⟨t1, b, e, o1, m1, _⟩ := ReplaceOrInsert_spec t k o
    refine ⟨t1, b, e, ?_⟩
    have : k ∈ toList t1.root := (m1 k).2 (Or.inl rfl)
    simp [Has, Get, getLoop_of_ordered t1.root k o1, this]
  · intro hl
    obtain ⟨t1, b, e, l1, tl, _⟩ := Delete_spec t k hl
    refine ⟨t1, b, e, ?_⟩
    have : k ∉ toList t1.root := by rw [tl]; simp
    simp [Has, Get, getLoop_of_ordered t1.root k l1.1, this]

/-- C13 at the tree built from 4, 6, 1, 3 and the key 3. -/
theorem C13_get_has_witness :
    ordered tree4613.root ∧ Get tree4613 3 = (3, true) ∧ Get tree4613 5 = (0, false) :=
  ⟨by decide, (C13_get_has tree4613 3 (by decide)).1 (by decide),
    (C13_get_has tree4613 5 (by decide)).2.1 (by decide)⟩

/-- C19 fails as stated: in the tree built from 4, 6, 1, 3 the absent key 5 is searched along
two links, and `GetHeight(5)` returns `(0, 2)`, not `(0, 0)`. -/
theorem C19_absent_counterexample :
    5 ∉ toList tree4613.root ∧ GetHeight tree4613 5 = (0, 2) ∧
    ¬ (∀ (t : LLRB) (k : Nat), k ∉ toList t.root → GetHeight t k = (0, 0)) := by
  refine ⟨by decide, rfl, ?_⟩
  intro hall
  have h := hall tree4613 5 (by decide)
  revert h
  decide

/-- C19 amended: for a key the tree does not contain `GetHeight(k)` returns `(0, d)` where `d`
is the number of links the search follows from the root until it meets a nil link, which is 0
only for the empty tree; for a key that a strictly ordered tree contains it returns `(k, d)`
with `d` the number of links on the path from the root to the node of `k`. -/
theorem C19_getHeight (t : LLRB) (k : Nat) :
    (k ∉ toList t.root →
      GetHeight t k = (0, (searchDepth t.root k : Int)) ∧
      (t.root = nil → GetHeight t k = (0, 0)) ∧
      (t.root ≠ nil → 1 ≤ (GetHeight t k).2)) ∧
    (ordered t.root → k ∈ toList t.root →
      ∃ d : Nat, GetHeight t k = (k, (d : Int)) ∧ AtDepth k t.root d) := by
  constructor
  · intro hk
    have e : GetHeight t k = (0, (searchDepth t.root k : Int)) :=
      Prod.ext (getHeight_absent t.root k hk) (getHeight_eq t.root k)
    refine ⟨e, ?_, ?_⟩
    · intro hn
      rw [e, hn]; rfl
    · intro hn
      rw [e]
      rcases ht : t.root with _ | ⟨v, l, r, b⟩
      · exact absurd ht hn
      · rw [ht] at hk
        simp only [toList, List.mem_append, List.mem_cons, not_or] at hk
        simp only [searchDepth]
        by_cases c1 : k < v
        · simp [c1]
        · by_cases c2 : v < k
          · simp [c1, c2]
          · exact absurd (by omega : k = v) hk.2.1
  · intro o hk
    obtain ⟨h1, h2⟩ := getHeight_present t.root k o hk
    exact ⟨searchDepth t.root k, Prod.ext h1 (getHeight_eq t.root k), h2⟩

/-- C19 amended, at the tree built from 4, 6, 1, 3: the absent key 5 and the key 1. -/
theorem C19_getHeight_witness :
    5 ∉ toList tree4613.root ∧ GetHeight tree4613 5 = (0, 2) ∧
    ordered tree4613.root ∧ 1 ∈ toList tree4613.root ∧
    ∃ d : Nat, GetHeight tree4613 1 = (1, (d : Int)) ∧ AtDepth 1 tree4613.root d :=
  ⟨by decide, ((C19_getHeight tree4613 5).1 (by decide)).1.trans (by decide), by decide,
    by decide, (C19_getHeight tree4613 1).2 (by decide) (by decide)⟩

/-! ## Insertion keeps the shape invariants -/

theorem blackenRoot_node (v : Nat) (l r : Node) (c : Bool) :
    blackenRoot (node v l r c) = node v l r true := rfl

theorem wf_left_black {l : Node} (w : wf l) (c : isRed l = true) : isRed l.Left = false := by
  obtain ⟨lv, ll, lr, rfl⟩ := isRed_eq_true c
  rw [wf_node] at w
  simpa [Left_node] using w.2.2.2.1

theorem wf_of_blackenRoot {l : Node} (w : wf (blackenRoot l))
    (c : (isRed l && isRed l.Left) = false) : wf l := by
  rcases l with _ | ⟨lv, ll, lr, lc⟩
  · exact wf_nil
  · rw [blackenRoot_node, wf_node] at w
    obtain ⟨w1, w2, c2, _, e⟩ := w
    refine (wf_node ..).2 ⟨w1, w2, c2, ?_, e⟩
    cases lc
    · right; simpa [isRed_node, Left_node] using c
    · left; rfl

/-- The step `walkUpRot23` at a node whose left subtree has just received a key. -/
theorem walkUpRot23_left (v : Nat) (l r : Node) (c : Bool) (wl : wf (blackenRoot l))
    (hc : c = false → wf l) (wr : wf r) (cr : isRed r = false)
    (e : blackHeight l = blackHeight r) :
    ∃ o, walkUpRot23 (node v l r c) = some o ∧ wf (blackenRoot o) ∧
      blackHeight o = blackHeight l + (if c then 1 else 0) ∧ (c = true → wf o) := by
  by_cases c2 : (isRed l && isRed l.Left) = true
  · -- two red links in a row on the left
    simp only [Bool.and_eq_true] at c2
    obtain ⟨lv, ll, lr, rfl⟩ := isRed_eq_true c2.1
    obtain ⟨av, al, ar, rfl⟩ := isRed_eq_true (by simpa [Left_node] using c2.2)
    have hct : c = true := by
      cases c
      · have := hc rfl
        rw [wf_node] at this
        simpa [isRed_node] using this.2.2.2.1
      · rfl
    subst hct
    rw [blackenRoot_node, wf_node] at wl
    obtain ⟨wll, wlr, clr, _, el⟩ := wl
    rw [wf_node] at wll
    obtain ⟨wal, war, car, cal, ea⟩ := wll
    simp only [blackHeight_red] at e el
    have wo : wf (node lv (node av al ar true) (node v lr r true) false) :=
      (wf_node ..).2 ⟨(wf_node ..).2 ⟨wal, war, car, Or.inl rfl, ea⟩,
        (wf_node ..).2 ⟨wlr, wr, cr, Or.inl rfl, by omega⟩, rfl, Or.inr rfl,
        by simp only [blackHeight_black]; omega⟩
    refine ⟨node lv (node av al ar true) (node v lr r true) false, ?_, wf_blackenRoot wo, ?_,
      fun _ => wo⟩
    · simp [walkUpRot23, isRed_node, cr, Left_node, Right_node, rotateRight, flip]
    · simp [blackHeight_red, blackHeight_black]
  · simp only [Bool.not_eq_true] at c2
    have wl1 : wf l := wf_of_blackenRoot wl c2
    have e1 : walkUpRot23 (node v l r c) = some (node v l r c) := by
      simp [walkUpRot23, cr, Left_node, Right_node, c2]
    refine ⟨_, e1, (wf_node ..).2 ⟨wl1, wr, cr, Or.inl rfl, e⟩, ?_, fun h => ?_⟩
    · cases c <;> simp [blackHeight_red, blackHeight_black]
    · exact (wf_node ..).2 ⟨wl1, wr, cr, Or.inl h, e⟩

/-- The step `walkUpRot23` at a node whose right subtree has just received a key. -/
theorem walkUpRot23_right (v : Nat) (l r : Node) (c : Bool) (wl : wf l)
    (hc : c = false → isRed l = false) (wr : wf r) (e : blackHeight l = blackHeight r) :
    ∃ o, walkUpRot23 (node v l r c) = some o ∧ wf (blackenRoot o) ∧
      blackHeight o = blackHeight l + (if c then 1 else 0) ∧ (c = true → wf o) := by
  have hll : (isRed l && isRed l.Left) = false := by
    by_cases h : isRed l = true
    · simp [wf_left_black wl h]
    · simp only [Bool.not_eq_true] at h; simp [h]
  by_cases c3 : isRed r = true
  · obtain ⟨rv, rl, rr, rfl⟩ := isRed_eq_true c3
    rw [wf_node] at wr
    obtain ⟨wrl, wrr, crr, crl, er⟩ := wr
    simp only [Bool.false_eq_true, false_or] at crl
    simp only [blackHeight_red] at e
    by_cases c4 : isRed l = true
    · -- both links red: colour flip
      obtain ⟨lv, ll, lr, rfl⟩ := isRed_eq_true c4
      have hct : c = true := by
        cases c
        · simpa [isRed_node] using hc rfl
        · rfl
      subst hct
      rw [wf_node] at wl
      obtain ⟨wll, wlr, clr, cll, el⟩ := wl
      simp only [Bool.false_eq_true, false_or] at cll
      simp only [blackHeight_red] at e
      have wo : wf (node v (node lv ll lr true) (node rv rl rr true) false) :=
        (wf_node ..).2 ⟨(wf_node ..).2 ⟨wll, wlr, clr, Or.inl rfl, el⟩,
          (wf_node ..).2 ⟨wrl, wrr, crr, Or.inl rfl, er⟩, rfl, Or.inr rfl,
          by simp only [blackHeight_black]; omega⟩
      refine ⟨node v (node lv ll lr true) (node rv rl rr true) false, ?_, wf_blackenRoot wo,
        ?_, fun _ => wo⟩
      · simp [walkUpRot23, isRed_node, Left_node, Right_node, cll, flip]
      · simp [blackHeight_red, blackHeight_black]
    · -- the red link leans right: rotate left
      simp only [Bool.not_eq_true] at c4
      have wi : wf (node v l rl false) := (wf_node ..).2 ⟨wl, wrl, crl, Or.inr c4, e⟩
      refine ⟨node rv (node v l rl false) rr c, ?_, ?_, ?_, fun h => ?_⟩
      · simp [walkUpRot23, isRed_node, c4, Left_node, Right_node, rotateLeft, crr]
      · rw [blackenRoot_node]
        exact (wf_node ..).2 ⟨wi, wrr, crr, Or.inl rfl, by simp only [blackHeight_red]; omega⟩
      · cases c <;> simp [blackHeight_red, blackHeight_black]
      · exact (wf_node ..).2 ⟨wi, wrr, crr, Or.inl h, by simp only [blackHeight_red]; omega⟩
  · simp only [Bool.not_eq_true] at c3
    have e1 : walkUpRot23 (node v l r c) = some (node v l r c) := by
      simp [walkUpRot23, c3, Left_node, Right_node, hll]
    refine ⟨_, e1, (wf_node ..).2 ⟨wl, wr, c3, Or.inl rfl, e⟩, ?_, fun h => ?_⟩
    · cases c <;> simp [blackHeight_red, blackHeight_black]
    · exact (wf_node ..).2 ⟨wl, wr, c3, Or.inl h, e⟩

theorem replaceOrInsert_wf (k : Nat) (h : Node) (w : wf h) :
    ∃ h1 b, replaceOrInsert h k = some (h1, b) ∧ wf (blackenRoot h1) ∧
      blackHeight h1 = blackHeight h ∧ (isRed h = false → wf h1) := by
  induction h with
  | nil =>
    have wn : wf (node k nil nil false) := (wf_node ..).2 ⟨wf_nil, wf_nil, rfl, Or.inr rfl, rfl⟩
    exact ⟨newNode k, false, rfl, wf_blackenRoot wn, rfl, fun _ => wn⟩
  | node v l r c ihl ihr =>
    rw [wf_node] at w
    obtain ⟨wl, wr, cr, hc, e⟩ := w
    have hc1 : c = false → isRed l = false := by
      intro h; subst h; simpa using hc
    unfold replaceOrInsert
    by_cases c1 : k < v
    · obtain ⟨l1, b, e1, w1, b1, v1⟩ := ihl wl
      obtain ⟨o, e2, w2, b2, v2⟩ := walkUpRot23_left v l1 r c w1 (fun h => v1 (hc1 h)) wr cr
        (by rw [b1]; exact e)
      refine ⟨o, b, by simp [less, c1, e1, e2], w2, ?_, fun h => v2 (by simpa [isRed_node] using h)⟩
      rw [b2, b1]; rfl
    · by_cases c2 : v < k
      · obtain ⟨r1, b, e1, _, b1, v1⟩ := ihr wr
        obtain ⟨o, e2, w2, b2, v2⟩ := walkUpRot23_right v l r1 c wl hc1 (v1 cr)
          (by rw [b1]; exact e)
        refine ⟨o, b, by simp [less, c1, c2, e1, e2], w2, b2,
          fun h => v2 (by simpa [isRed_node] using h)⟩
      · obtain ⟨o, e2, w2, b2, v2⟩ := walkUpRot23_right k l r c wl hc1 wr e
        refine ⟨o, true, by simp [less, c1, c2, e2], w2, b2,
          fun h => v2 (by simpa [isRed_node] using h)⟩

theorem insertNoReplace_wf (k : Nat) (h : Node) (w : wf h) :
    ∃ h1, insertNoReplace h k = some h1 ∧ wf (blackenRoot h1) ∧
      blackHeight h1 = blackHeight h ∧ (isRed h = false → wf h1) := by
  induction h with
  | nil =>
    have wn : wf (node k nil nil false) := (wf_node ..).2 ⟨wf_nil, wf_nil, rfl, Or.inr rfl, rfl⟩
    exact ⟨newNode k, rfl, wf_blackenRoot wn, rfl, fun _ => wn⟩
  | node v l r c ihl ihr =>
    rw [wf_node] at w
    obtain ⟨wl, wr, cr, hc, e⟩ := w
    have hc1 : c = false → isRed l = false := by
      intro h; subst h; simpa using hc
    unfold insertNoReplace
    by_cases c1 : k < v
    · obtain ⟨l1, e1, w1, b1, v1⟩ := ihl wl
      obtain ⟨o, e2, w2, b2, v2⟩ := walkUpRot23_left v l1 r c w1 (fun h => v1 (hc1 h)) wr cr
        (by rw [b1]; exact e)
      refine ⟨o, by simp [less, c1, e1, e2], w2, ?_, fun h => v2 (by simpa [isRed_node] using h)⟩
      rw [b2, b1]; rfl
    · obtain ⟨r1, e1, _, b1, v1⟩ := ihr wr
      obtain ⟨o, e2, w2, b2, v2⟩ := walkUpRot23_right v l r1 c wl hc1 (v1 cr)
        (by rw [b1]; exact e)
      exact ⟨o, by simp [less, c1, e1, e2], w2, b2, fun h => v2 (by simpa [isRed_node] using h)⟩

/-! ## ReplaceOrInsert and InsertNoReplace on whole trees -/

theorem setRootBlack_eq {h : Node} (n : h ≠ nil) : setRootBlack h = some (blackenRoot h) := by
  cases h with
  | nil => exact absurd rfl n
  | node v l r b => rfl

theorem ReplaceOrInsert_isLLRB (t : LLRB) (k : Nat) (h : isLLRB t.root) :
    ∃ t1 b, ReplaceOrInsert t k = some (t1, b) ∧ isLLRB t1.root ∧
      (∀ x, x ∈ toList t1.root ↔ x = k ∨ x ∈ toList t.root) ∧ (b = true ↔ k ∈ toList t.root) ∧
      size t1.root = size t.root + (if b then 0 else 1) ∧
      t1.count = (if b then t.count else t.count + 1) := by
  obtain ⟨hp, w, c⟩ := (isLLRB_iff _).1 h
  obtain ⟨h1, b, e, o1, n1, m1, hb, sz⟩ := replaceOrInsert_spec t.root k h.1
  obtain ⟨h2, b2, e2, w2, _, _⟩ := replaceOrInsert_wf k t.root w
  rw [e] at e2
  simp only [Option.some.injEq, Prod.mk.injEq] at e2
  obtain ⟨rfl, rfl⟩ := e2
  refine ⟨{ count := if b then t.count else t.count + 1, root := blackenRoot h1 }, b, ?_, ?_, ?_,
    hb, ?_, rfl⟩
  · simp only [ReplaceOrInsert, e, setRootBlack_eq n1]
  · rw [isLLRB_iff]
    refine ⟨?_, w2, isRed_blackenRoot h1⟩
    show (toList (blackenRoot h1)).Pairwise (· < ·)
    rw [toList_blackenRoot]
    exact (ordered_iff_pairwise h1).1 o1
  · intro x
    show x ∈ toList (blackenRoot h1) ↔ _
    rw [toList_blackenRoot]; exact m1 x
  · show size (blackenRoot h1) = _
    rw [← length_toList, toList_blackenRoot, length_toList]; exact sz

/-- C16: `ReplaceOrInsert` preserves the LLRB invariants: on every tree (the empty tree
included) with strict order, no red right link, no red node with a red child, equal black
height on every path and a black root, the tree after `ReplaceOrInsert(k)` has all of these
properties again. -/
theorem C16_insert_preserves_invariants (t : LLRB) (k : Nat) (o : ordered t.root)
    (h1 : noRedRight t.root = true) (h2 : noRedRed t.root = true)
    (h3 : blackBalanced t.root = true) (h4 : isRed t.root = false) :
    ∃ t1 b, ReplaceOrInsert t k = some (t1, b) ∧ ordered t1.root ∧
      noRedRight t1.root = true ∧ noRedRed t1.root = true ∧ blackBalanced t1.root = true ∧
      isRed t1.root = false := by
  obtain ⟨t1, b, e, l1, _⟩ := ReplaceOrInsert_isLLRB t k ⟨o, h1, h2, h3, h4⟩
  exact ⟨t1, b, e, l1⟩

/-- C16 at the tree built from 4, 6, 1, 3 and the key 5, and at the empty tree. -/
theorem C16_insert_preserves_invariants_witness :
    (ordered tree4613.root ∧ noRedRight tree4613.root = true ∧ noRedRed tree4613.root = true ∧
      blackBalanced tree4613.root = true ∧ isRed tree4613.root = false) ∧
    (∃ t1 b, ReplaceOrInsert tree4613 5 = some (t1, b) ∧ ordered t1.root ∧
      noRedRight t1.root = true ∧ noRedRed t1.root = true ∧ blackBalanced t1.root = true ∧
      isRed t1.root = false) ∧
    (∃ t1 b, ReplaceOrInsert New 5 = some (t1, b) ∧ ordered t1.root ∧
      noRedRight t1.root = true ∧ noRedRed t1.root = true ∧ blackBalanced t1.root = true ∧
      isRed t1.root = false) :=
  ⟨by decide,
    C16_insert_preserves_invariants tree4613 5 (by decide) (by decide) (by decide) (by decide)
      (by decide),
    C16_insert_preserves_invariants New 5 (by decide) (by decide) (by decide) (by decide)
      (by decide)⟩

theorem geKeys_zero (h : Node) : geKeys h 0 = toList h := by
  induction h with
  | nil => rfl
  | node v l r b ihl ihr => simp [geKeys, less, toList, ihl, ihr]

theorem insertNoReplace_keys (k : Nat) (h : Node) (hp : (toList h).Pairwise (· ≤ ·)) :
    ∃ h1, insertNoReplace h k = some h1 ∧ h1 ≠ nil ∧ (toList h1).Pairwise (· ≤ ·) ∧
      (toList h1).Perm (k :: toList h) := by
  induction h with
  | nil => exact ⟨newNode k, rfl, by simp [newNode], by simp [newNode, toList],
      by simp [newNode, toList]⟩
  | node v l r c ihl ihr =>
    simp only [toList, List.pairwise_append, List.pairwise_cons] at hp
    obtain ⟨pl, ⟨hv, pr⟩, hlr⟩ := hp
    unfold insertNoReplace
    by_cases c1 : k < v
    · obtain ⟨l1, e1, _, p1, q1⟩ := ihl pl
      obtain ⟨o, e2, s2⟩ := walkUpRot23_sameKeys v l1 r c
      refine ⟨o, by simp [less, c1, e1, e2], s2.2.2, ?_, ?_⟩
      · rw [s2.1]
        simp only [toList, List.pairwise_append, List.pairwise_cons]
        refine ⟨p1, ⟨hv, pr⟩, ?_⟩
        intro a ha b hb
        rcases List.mem_cons.1 (q1.mem_iff.1 ha) with rfl | ha
        · rcases List.mem_cons.1 hb with rfl | hb
          · omega
          · have := hv b hb; omega
        · exact hlr a ha b hb
      · rw [s2.1]
        simp only [toList]
        exact (q1.append_right _).trans (by simp)
    · obtain ⟨r1, e1, _, p1, q1⟩ := ihr pr
      obtain ⟨o, e2, s2⟩ := walkUpRot23_sameKeys v l r1 c
      refine ⟨o, by simp [less, c1, e1, e2], s2.2.2, ?_, ?_⟩
      · rw [s2.1]
        simp only [toList, List.pairwise_append, List.pairwise_cons]
        refine ⟨pl, ⟨?_, p1⟩, ?_⟩
        · intro b hb
          rcases List.mem_cons.1 (q1.mem_iff.1 hb) with rfl | hb
          · omega
          · exact hv b hb
        · intro a ha b hb
          rcases List.mem_cons.1 hb with rfl | hb
          · exact hlr a ha b (List.mem_cons_self _ _)
          · rcases List.mem_cons.1 (q1.mem_iff.1 hb) with rfl | hb
            · have := hlr a ha v (List.mem_cons_self _ _); omega
            · exact hlr a ha b (List.mem_cons_of_mem _ hb)
      · rw [s2.1]
        simp only [toList]
        have h1 : (toList l ++ v :: toList r1).Perm (toList l ++ v :: k :: toList r) :=
          List.Perm.append_left _ (List.Perm.cons _ q1)
        refine h1.trans ?_
        have h2 : (toList l ++ v :: k :: toList r).Perm (toList l ++ k :: v :: toList r) :=
          List.Perm.append_left _ (List.Perm.swap _ _ _)
        exact h2.trans List.perm_middle

theorem InsertNoReplaceBulk_keys (ks : List Nat) : ∀ (t : LLRB),
    (toList t.root).Pairwise (· ≤ ·) →
    ∃ t1, InsertNoReplaceBulk t ks = some t1 ∧ (toList t1.root).Pairwise (· ≤ ·) ∧
      (toList t1.root).Perm (ks ++ toList t.root) ∧ t1.count = t.count + ks.length := by
  induction ks with
  | nil => intro t hp; exact ⟨t, rfl, hp, by simp, by simp⟩
  | cons k ks ih =>
    intro t hp
    obtain ⟨h1, e1, n1, p1, q1⟩ := insertNoReplace_keys k t.root hp
    have p2 : (toList (blackenRoot h1)).Pairwise (· ≤ ·) := by
      rw [toList_blackenRoot]; exact p1
    obtain ⟨t2, e2, p3, q3, c3⟩ := ih { count := t.count + 1, root := blackenRoot h1 } p2
    refine ⟨t2, ?_, p3, ?_, ?_⟩
    · simp only [InsertNoReplaceBulk, InsertNoReplace, e1, setRootBlack_eq n1, e2]
    · refine q3.trans ?_
      show (ks ++ toList (blackenRoot h1)).Perm _
      rw [toList_blackenRoot]
      refine (List.Perm.append_left _ q1).trans ?_
      simp
    · rw [c3]; simp only [List.length_cons]; push_cast; ring

/-- C14: after `InsertNoReplace` of each key of a finite sequence, starting from the empty tree,
`Len()` is the length of the sequence and `AscendGreaterOrEqual(0, cb)` with an always-true
callback visits the inserted keys as a sorted multiset: non-decreasing, each key as often as it
was inserted. -/
theorem C14_insertNoReplace_multiset (ks : List Nat) :
    ∃ t, InsertNoReplaceBulk New ks = some t ∧ Len t = ks.length ∧
      (visited (AscendGreaterOrEqual t 0)).Sorted (· ≤ ·) ∧
      (visited (AscendGreaterOrEqual t 0)).Perm ks ∧
      (∀ k, (visited (AscendGreaterOrEqual t 0)).count k = ks.count k) ∧
      visited (AscendGreaterOrEqual t 0) = ks.insertionSort (· ≤ ·) := by
  obtain ⟨t, e, p, q, c⟩ := InsertNoReplaceBulk_keys ks New (by simp [New, toList])
  have hv : visited (AscendGreaterOrEqual t 0) = toList t.root := by
    rw [visited_ascendGreaterOrEqual, geKeys_zero]
  have q1 : (toList t.root).Perm ks := by simpa [New, toList] using q
  refine ⟨t, e, by simp [Len, c, New], ?_⟩
  rw [hv]
  refine ⟨p, q1, fun k => q1.count_eq k, ?_⟩
  exact List.eq_of_perm_of_sorted (q1.trans (List.perm_insertionSort _ _).symm) p
    (List.sorted_insertionSort _ _)

/-! ## deleteMax -/

theorem deleteMax_spec (fuel : Nat) : ∀ (v : Nat) (l r : Node) (c : Bool),
    size (node v l r c) < fuel → wf l → wf r → blackHeight l = blackHeight r →
    MaxState l r c →
    ∃ o m, deleteMax fuel (node v l r c) = some (o, m, true) ∧
      toList (node v l r c) = toList o ++ [m] ∧ wf o ∧
      blackHeight o = blackHeight (node v l r c) ∧ (c = true → isRed o = false) := by
  induction fuel with
  | zero => intro v l r c hs; omega
  | succ f ih =>
    intro v l r c hs wl wr e st
    rcases st with ⟨rfl, cl, cr⟩ | ⟨rfl, cl, cr⟩ | ⟨rfl, cl, cr⟩
    · -- a red node
      rcases isRed_eq_false cr with rfl | ⟨rv, rl, rr, rfl⟩
      · have hl : l = nil := eq_nil_of_blackHeight wl cl (by simpa [blackHeight] using e)
        subst hl
        exact ⟨nil, v, by simp [deleteMax, isRed_nil], by simp [toList], wf_nil, rfl,
          by simp⟩
      · rw [wf_node] at wr
        obtain ⟨wrl, wrr, crr, _, er⟩ := wr
        have hsr : size (node rv rl rr true) < f := by simp only [size] at hs ⊢; omega
        by_cases c4 : isRed rl = true
        · -- the right child is a 3-node
          obtain ⟨o1, m, e1, t1, w1, b1, c1⟩ := ih rv rl rr true hsr wrl wrr er
            (Or.inr (Or.inl ⟨rfl, c4, crr⟩))
          have c1 := c1 rfl
          refine ⟨node v l o1 false, m, ?_, ?_, ?_, ?_, by simp⟩
          · simp [deleteMax, cl, isRed_node, c4, e1, fixUp_noop v l o1 false c1 (Or.inl cl)]
          · show toList l ++ v :: toList (node rv rl rr true) = _
            rw [t1]; simp [toList]
          · rw [wf_node]; exact ⟨wl, w1, c1, Or.inr cl, by rw [b1]; exact e⟩
          · rfl
        · simp only [Bool.not_eq_true] at c4
          obtain ⟨lv, ll, lr, rfl⟩ := black_of_blackHeight cl
            (by rw [e]; simp [blackHeight_black])
          rw [wf_node] at wl
          obtain ⟨wll, wlr, clr, _, el⟩ := wl
          simp only [blackHeight_black, Nat.add_right_cancel_iff] at e
          by_cases c3 : isRed ll = true
          · -- borrow from the left sibling
            obtain ⟨av, al, ar, rfl⟩ := isRed_eq_true c3
            rw [wf_node] at wll
            obtain ⟨wal, war, car, cal, ea⟩ := wll
            simp only [Bool.false_eq_true, false_or] at cal
            simp only [blackHeight_red] at el e
            obtain ⟨o1, m, e1, t1, w1, b1, c1⟩ := ih v lr (node rv rl rr false) true
              (by simp only [size] at hs ⊢; omega) wlr
              ((wf_node ..).2 ⟨wrl, wrr, crr, Or.inr c4, er⟩)
              (by simp only [blackHeight_red]; omega) (Or.inr (Or.inr ⟨rfl, clr, rfl⟩))
            have c1 := c1 rfl
            refine ⟨node lv (node av al ar true) o1 false, m, ?_, ?_, ?_, ?_, by simp⟩
            · simp [deleteMax, isRed_node, c4, moveRedRight_borrow, e1,
                fixUp_noop lv (node av al ar true) o1 false c1 (Or.inl rfl)]
            · have t := congrArg (fun L => toList (node av al ar true) ++ lv :: L) t1
              simpa [toList] using t
            · rw [wf_node]
              refine ⟨(wf_node ..).2 ⟨wal, war, car, Or.inl rfl, ea⟩, w1, c1, Or.inr rfl, ?_⟩
              rw [b1]; simp only [blackHeight_black]; omega
            · simp only [blackHeight_red, blackHeight_black]
          · -- both children become red
            simp only [Bool.not_eq_true] at c3
            have wl1 : wf (node lv ll lr false) :=
              (wf_node ..).2 ⟨wll, wlr, clr, Or.inr c3, el⟩
            obtain ⟨o1, m, e1, t1, w1, b1, _⟩ := ih rv rl rr false
              (by simp only [size] at hs ⊢; omega) wrl wrr er (Or.inl ⟨rfl, c4, crr⟩)
            obtain ⟨o, e2, w2, b2, t2, _⟩ := fixUp_black v (node lv ll lr false) o1 wl1 w1
              (by rw [b1]; simp only [blackHeight_red]; omega)
            refine ⟨o, m, ?_, ?_, w2, ?_, by simp⟩
            · simp [deleteMax, isRed_node, c4, moveRedRight_simple _ _ _ _ _ _ _ _ _ _ c3,
                e1, e2]
            · rw [t2]
              have t := congrArg (fun L => toList (node lv ll lr true) ++ v :: L) t1
              simpa [toList] using t
            · rw [b2]; simp only [blackHeight_red, blackHeight_black]
    · -- a black node with a red left link: rotate right
      obtain ⟨lv, ll, lr, rfl⟩ := isRed_eq_true cl
      rw [wf_node] at wl
      obtain ⟨wll, wlr, clr, cll, el⟩ := wl
      simp only [Bool.false_eq_true, false_or] at cll
      simp only [blackHeight_red] at e
      obtain ⟨o1, m, e1, t1, w1, b1, _⟩ := ih v lr r false
        (by simp only [size] at hs ⊢; omega) wlr wr (by omega) (Or.inl ⟨rfl, clr, cr⟩)
      obtain ⟨o, e2, w2, b2, t2, c2⟩ := fixUp_black lv ll o1 wll w1
        (by rw [b1]; simp only [blackHeight_red]; exact el)
      refine ⟨o, m, ?_, ?_, w2, ?_, fun _ => c2 (Or.inl cll)⟩
      · simp [deleteMax, isRed_node, rotateRight, e1, e2]
      · rw [t2]
        have t := congrArg (fun L => toList ll ++ lv :: L) t1
        simpa [toList] using t
      · rw [b2]; simp [blackHeight_black, blackHeight_red]
    · -- a black node with a red right link
      obtain ⟨rv, rl, rr, rfl⟩ := isRed_eq_true cr
      have wr0 := wr
      rw [wf_node] at wr
      obtain ⟨wrl, wrr, crr, crl, er⟩ := wr
      simp only [Bool.false_eq_true, false_or] at crl
      obtain ⟨o1, m, e1, t1, w1, b1, _⟩ := ih rv rl rr false
        (by simp only [size] at hs ⊢; omega) wrl wrr er (Or.inl ⟨rfl, crl, crr⟩)
      obtain ⟨o, e2, w2, b2, t2, c2⟩ := fixUp_black v l o1 wl w1 (by rw [b1]; exact e)
      refine ⟨o, m, ?_, ?_, w2, ?_, fun _ => c2 (Or.inl cl)⟩
      · simp [deleteMax, cl, isRed_node, e1, e2]
      · rw [t2]
        have t := congrArg (fun L => toList l ++ v :: L) t1
        simpa [toList] using t
      · rw [b2]; simp [blackHeight_black]

/-! ## DeleteMin and DeleteMax on trees that satisfy the invariants -/

/-- The colour of the node handed to `deleteMin` only shows in the colour of the node
returned. -/
theorem deleteMin_toggle (f : Nat) (h : Node) :
    deleteMin (f + 1) (toggleRoot h) =
      (deleteMin (f + 1) h).map (fun p => (toggleRoot p.1, p.2)) := by
  rcases h with _ | ⟨v, l, r, c⟩
  · rfl
  · rcases l with _ | ⟨lv, ll, lr, lb⟩
    · rfl
    · simp only [toggleRoot, deleteMin]
      have s1 : (if (!isRed (node lv ll lr lb) && !isRed ll) = true then
            moveRedLeft (node v (node lv ll lr lb) r (!c))
          else some (node v (node lv ll lr lb) r (!c))) =
          (if (!isRed (node lv ll lr lb) && !isRed ll) = true then
            moveRedLeft (node v (node lv ll lr lb) r c)
          else some (node v (node lv ll lr lb) r c)).map toggleRoot := by
        split
        · exact moveRedLeft_toggle (node v (node lv ll lr lb) r c)
        · rfl
      rw [s1]
      rcases (if (!isRed (node lv ll lr lb) && !isRed ll) = true then
            moveRedLeft (node v (node lv ll lr lb) r c)
          else some (node v (node lv ll lr lb) r c)) with _ | (_ | ⟨v1, l1, r1, b1⟩)
      · rfl
      · rfl
      · simp only [Option.map_some', toggleRoot]
        rcases deleteMin f l1 with _ | ⟨l2, d, wd⟩
        · rfl
        · have e := fixUp_toggle (node v1 l2 r1 b1)
          simp only [toggleRoot] at e
          simp only [e]
          rcases fixUp (node v1 l2 r1 b1) with _ | h2 <;> rfl

/-- The colour of the node handed to `deleteMax` only shows in the colour of the node
returned. -/
theorem deleteMax_toggle (f : Nat) (h : Node) :
    deleteMax (f + 1) (toggleRoot h) =
      (deleteMax (f + 1) h).map (fun p => (toggleRoot p.1, p.2)) := by
  rcases h with _ | ⟨v, l, r, c⟩
  · rfl
  · simp only [toggleRoot, deleteMax]
    have s1 : (if isRed l = true then rotateRight (node v l r (!c))
        else some (node v l r (!c))) =
        (if isRed l = true then rotateRight (node v l r c) else some (node v l r c)).map
          toggleRoot := by
      split
      · exact rotateRight_toggle (node v l r c)
      · rfl
    rw [s1]
    rcases (if isRed l = true then rotateRight (node v l r c) else some (node v l r c)) with
      _ | (_ | ⟨v1, l1, r1, b1⟩)
    · rfl
    · rfl
    · simp only [Option.map_some', toggleRoot]
      rcases r1 with _ | ⟨rv, rl, rr, rb⟩
      · rfl
      · simp only
        have s2 : (if (!isRed (node rv rl rr rb) && !isRed rl) = true then
              moveRedRight (node v1 l1 (node rv rl rr rb) (!b1))
            else some (node v1 l1 (node rv rl rr rb) (!b1))) =
            (if (!isRed (node rv rl rr rb) && !isRed rl) = true then
              moveRedRight (node v1 l1 (node rv rl rr rb) b1)
            else some (node v1 l1 (node rv rl rr rb) b1)).map toggleRoot := by
          split
          · exact moveRedRight_toggle (node v1 l1 (node rv rl rr rb) b1)
          · rfl
        rw [s2]
        rcases (if (!isRed (node rv rl rr rb) && !isRed rl) = true then
              moveRedRight (node v1 l1 (node rv rl rr rb) b1)
            else some (node v1 l1 (node rv rl rr rb) b1)) with _ | (_ | ⟨v2, l2, r2, b2⟩)
        · rfl
        · rfl
        · simp only [Option.map_some', toggleRoot]
          rcases deleteMax f r2 with _ | ⟨r3, d, wd⟩
          · rfl
          · have e := fixUp_toggle (node v2 l2 r3 b2)
            simp only [toggleRoot] at e
            simp only [e]
            rcases fixUp (node v2 l2 r3 b2) with _ | h3 <;> rfl

theorem toList_minLoop (v : Nat) (l r : Node) (c : Bool) :
    ∃ rest, toList (node v l r c) = minLoop v l :: rest := by
  induction l generalizing v r c with
  | nil => exact ⟨toList r, rfl⟩
  | node lv ll lr lb ihl _ =>
    obtain ⟨rest, e⟩ := ihl lv lr lb
    refine ⟨rest ++ v :: toList r, ?_⟩
    show toList (node lv ll lr lb) ++ v :: toList r = _
    rw [e]; rfl

theorem toList_maxLoop (v : Nat) (l r : Node) (c : Bool) :
    ∃ init, toList (node v l r c) = init ++ [maxLoop v r] := by
  induction r generalizing v l c with
  | nil => exact ⟨toList l, by simp [toList, maxLoop]⟩
  | node rv rl rr rb _ ihr =>
    obtain ⟨init, e⟩ := ihr rv rl rb
    refine ⟨toList l ++ v :: init, ?_⟩
    show toList l ++ v :: toList (node rv rl rr rb) = _
    rw [e]; simp [maxLoop]

/-- The function `deleteMin` at the root of a non-empty tree that satisfies the invariants. -/
theorem deleteMin_root (v : Nat) (l r : Node) (w : wf (node v l r true)) :
    ∃ o m, deleteMin (size (node v l r true) + 1) (node v l r true) = some (o, m, true) ∧
      toList (node v l r true) = m :: toList (blackenRoot o) ∧ wf (blackenRoot o) := by
  by_cases cl : isRed l = true
  · obtain ⟨o, m, e1, t1, w1, _, _⟩ := deleteMin_spec _ v l r true (Nat.lt_succ_self _) w
      (Or.inr cl)
    exact ⟨o, m, e1, by rw [toList_blackenRoot]; exact t1, wf_blackenRoot w1⟩
  · simp only [Bool.not_eq_true] at cl
    rw [wf_node] at w
    obtain ⟨wl, wr, cr, _, e⟩ := w
    obtain ⟨o, m, e1, t1, w1, _, _⟩ := deleteMin_spec _ v l r false (Nat.lt_succ_self _)
      ((wf_node ..).2 ⟨wl, wr, cr, Or.inr cl, e⟩) (Or.inl rfl)
    have e2 := deleteMin_toggle (size (node v l r false)) (node v l r false)
    rw [e1] at e2
    refine ⟨toggleRoot o, m, e2, ?_, ?_⟩
    · rw [blackenRoot_toggleRoot, toList_blackenRoot]; exact t1
    · rw [blackenRoot_toggleRoot]; exact wf_blackenRoot w1

/-- The function `deleteMax` at the root of a non-empty tree that satisfies the invariants. -/
theorem deleteMax_root (v : Nat) (l r : Node) (w : wf (node v l r true)) :
    ∃ o m, deleteMax (size (node v l r true) + 1) (node v l r true) = some (o, m, true) ∧
      toList (node v l r true) = toList (blackenRoot o) ++ [m] ∧ wf (blackenRoot o) := by
  rw [wf_node] at w
  obtain ⟨wl, wr, cr, _, e⟩ := w
  by_cases cl : isRed l = true
  · obtain ⟨o, m, e1, t1, w1, _, _⟩ := deleteMax_spec _ v l r true (Nat.lt_succ_self _) wl wr e
      (Or.inr (Or.inl ⟨rfl, cl, cr⟩))
    exact ⟨o, m, e1, by rw [toList_blackenRoot]; exact t1, wf_blackenRoot w1⟩
  · simp only [Bool.not_eq_true] at cl
    obtain ⟨o, m, e1, t1, w1, _, _⟩ := deleteMax_spec _ v l r false (Nat.lt_succ_self _) wl wr e
      (Or.inl ⟨rfl, cl, cr⟩)
    have e2 := deleteMax_toggle (size (node v l r false)) (node v l r false)
    rw [e1] at e2
    refine ⟨toggleRoot o, m, e2, ?_, ?_⟩
    · rw [blackenRoot_toggleRoot, toList_blackenRoot]; exact t1
    · rw [blackenRoot_toggleRoot]; exact wf_blackenRoot w1

theorem DeleteMin_spec (t : LLRB) (h : isLLRB t.root) (hn : t.root ≠ nil) :
    ∃ t1 m, DeleteMin t = some (t1, m, true) ∧ isLLRB t1.root ∧
      toList t.root = m :: toList t1.root ∧ m = Min t ∧ t1.count = t.count - 1 := by
  obtain ⟨hp, w, c⟩ := (isLLRB_iff _).1 h
  rcases ht : t.root with _ | ⟨v, l, r, b⟩
  · exact absurd ht hn
  · rw [ht] at hp w c
    have hb : b = true := by simpa [isRed_node] using c
    subst hb
    obtain ⟨o, m, e1, t1, w1⟩ := deleteMin_root v l r w
    refine ⟨{ count := t.count - 1, root := blackenRoot o }, m, ?_, ?_, t1, ?_, rfl⟩
    · simp only [DeleteMin, ht, e1]; rfl
    · rw [isLLRB_iff]
      refine ⟨?_, w1, isRed_blackenRoot o⟩
      rw [t1] at hp
      exact (List.pairwise_cons.1 hp).2
    · obtain ⟨rest, e2⟩ := toList_minLoop v l r true
      rw [e2] at t1
      simp only [Min, ht]
      exact (List.cons.inj t1).1.symm

theorem DeleteMax_spec (t : LLRB) (h : isLLRB t.root) (hn : t.root ≠ nil) :
    ∃ t1 m, DeleteMax t = some (t1, m, true) ∧ isLLRB t1.root ∧
      toList t.root = toList t1.root ++ [m] ∧ m = Max t ∧ t1.count = t.count - 1 := by
  obtain ⟨hp, w, c⟩ := (isLLRB_iff _).1 h
  rcases ht : t.root with _ | ⟨v, l, r, b⟩
  · exact absurd ht hn
  · rw [ht] at hp w c
    have hb : b = true := by simpa [isRed_node] using c
    subst hb
    obtain ⟨o, m, e1, t1, w1⟩ := deleteMax_root v l r w
    refine ⟨{ count := t.count - 1, root := blackenRoot o }, m, ?_, ?_, t1, ?_, rfl⟩
    · simp only [DeleteMax, ht, e1]; rfl
    · rw [isLLRB_iff]
      refine ⟨?_, w1, isRed_blackenRoot o⟩
      rw [t1] at hp
      exact (List.pairwise_append.1 hp).1
    · obtain ⟨init, e2⟩ := toList_maxLoop v l r true
      rw [e2] at t1
      simp only [Max, ht]
      exact (List.append_inj' t1 rfl).2 |> fun h => (List.cons.inj h).1.symm

/-! ## Deletion: results, invariants, absence of panics -/

theorem visited_all (t : LLRB) : visited (AscendGreaterOrEqual t 0) = toList t.root := by
  rw [visited_ascendGreaterOrEqual, geKeys_zero]

/-- C11: `DeleteMin` on the empty tree returns `(0, false)` and leaves `Len()` at 0; on a
non-empty tree satisfying the LLRB invariants it returns `(m, true)` with `m` the smallest key
(the value of `Min()` before the call), `Len()` decreases by exactly 1 (for a count above the
smallest `int`, where `t.count--` does not wrap around), and the ascending key sequence
afterwards is the old one without its first element. -/
theorem C11_deleteMin (t : LLRB) (h : isLLRB t.root) :
    (∃ t0, DeleteMin New = some (t0, 0, false) ∧ Len t0 = 0 ∧ t0.root = nil) ∧
    (t.root = nil → ∃ t0, DeleteMin t = some (t0, 0, false) ∧ Len t0 = Len t ∧ t0.root = nil) ∧
    (t.root ≠ nil → ∃ t1 m, DeleteMin t = some (t1, m, true) ∧ m = Min t ∧
      m ∈ toList t.root ∧ (∀ x ∈ toList t.root, m ≤ x) ∧
      (minInt < Len t → Len t1 = Len t - 1) ∧
      toList t1.root = (toList t.root).tail ∧
      visited (AscendGreaterOrEqual t1 0) = (visited (AscendGreaterOrEqual t 0)).tail) := by
  refine ⟨⟨_, rfl, rfl, rfl⟩, ?_, ?_⟩
  · intro hn
    refine ⟨{ count := t.count, root := nil }, ?_, rfl, rfl⟩
    simp only [DeleteMin, hn, size, deleteMin, blackenRoot]
    rfl
  · intro hn
    obtain ⟨t1, m, e, _, tl, hm, hc⟩ := DeleteMin_spec t h hn
    have hp := ((isLLRB_iff _).1 h).1
    refine ⟨t1, m, e, hm, by rw [tl]; exact List.mem_cons_self _ _, ?_,
      fun _ => by simp [Len, hc], ?_, ?_⟩
    · intro x hx
      rw [tl] at hx hp
      rcases List.mem_cons.1 hx with rfl | hx
      · exact le_refl _
      · exact Nat.le_of_lt ((List.pairwise_cons.1 hp).1 x hx)
    · rw [tl]; rfl
    · rw [visited_all, visited_all, tl]; rfl

/-- C11 at the tree built from 4, 6, 1, 3, whose count 4 is above the smallest `int`. -/
theorem C11_deleteMin_witness :
    isLLRB tree4613.root ∧ tree4613.root ≠ nil ∧ minInt < Len tree4613 ∧
    ∃ t1 m, DeleteMin tree4613 = some (t1, m, true) ∧ m = Min tree4613 ∧
      m ∈ toList tree4613.root ∧ (∀ x ∈ toList tree4613.root, m ≤ x) ∧
      (minInt < Len tree4613 → Len t1 = Len tree4613 - 1) ∧
      toList t1.root = (toList tree4613.root).tail ∧
      visited (AscendGreaterOrEqual t1 0) = (visited (AscendGreaterOrEqual tree4613 0)).tail :=
  ⟨by decide, by decide, by decide, (C11_deleteMin tree4613 (by decide)).2.2 (by decide)⟩

/-- C12: `DeleteMax` on the empty tree returns `(0, false)` and leaves `Len()` at 0; on a
non-empty tree satisfying the LLRB invariants it returns `(M, true)` with `M` the largest key
(the value of `Max()` before the call), `Len()` decreases by exactly 1 (for a count above the
smallest `int`, where `t.count--` does not wrap around), and the ascending key sequence
afterwards is the old one without its last element. -/
theorem C12_deleteMax (t : LLRB) (h : isLLRB t.root) :
    (∃ t0, DeleteMax New = some (t0, 0, false) ∧ Len t0 = 0 ∧ t0.root = nil) ∧
    (t.root = nil → ∃ t0, DeleteMax t = some (t0, 0, false) ∧ Len t0 = Len t ∧ t0.root = nil) ∧
    (t.root ≠ nil → ∃ t1 m, DeleteMax t = some (t1, m, true) ∧ m = Max t ∧
      m ∈ toList t.root ∧ (∀ x ∈ toList t.root, x ≤ m) ∧
      (minInt < Len t → Len t1 = Len t - 1) ∧
      toList t1.root = (toList t.root).dropLast ∧
      visited (AscendGreaterOrEqual t1 0) =
        (visited (AscendGreaterOrEqual t 0)).dropLast) := by
  refine ⟨⟨_, rfl, rfl, rfl⟩, ?_, ?_⟩
  · intro hn
    refine ⟨{ count := t.count, root := nil }, ?_, rfl, rfl⟩
    simp only [DeleteMax, hn, size, deleteMax, blackenRoot]
    rfl
  · intro hn
    obtain ⟨t1, m, e, _, tl, hm, hc⟩ := DeleteMax_spec t h hn
    have hp := ((isLLRB_iff _).1 h).1
    refine ⟨t1, m, e, hm, by rw [tl]; simp, ?_, fun _ => by simp [Len, hc], ?_, ?_⟩
    · intro x hx
      rw [tl] at hx hp
      rcases List.mem_append.1 hx with hx | hx
      · exact Nat.le_of_lt ((List.pairwise_append.1 hp).2.2 x hx m (List.mem_singleton_self _))
      · rw [List.mem_singleton.1 hx]
    · rw [tl]; simp
    · rw [visited_all, visited_all, tl]; simp

/-- C12 at the tree built from 4, 6, 1, 3, whose count 4 is above the smallest `int`. -/
theorem C12_deleteMax_witness :
    isLLRB tree4613.root ∧ tree4613.root ≠ nil ∧ minInt < Len tree4613 ∧
    ∃ t1 m, DeleteMax tree4613 = some (t1, m, true) ∧ m = Max tree4613 ∧
      m ∈ toList tree4613.root ∧ (∀ x ∈ toList tree4613.root, x ≤ m) ∧
      (minInt < Len tree4613 → Len t1 = Len tree4613 - 1) ∧
      toList t1.root = (toList tree4613.root).dropLast ∧
      visited (AscendGreaterOrEqual t1 0) =
        (visited (AscendGreaterOrEqual tree4613 0)).dropLast :=
  ⟨by decide, by decide, by decide, (C12_deleteMax tree4613 (by decide)).2.2 (by decide)⟩

theorem isLLRB_nil : isLLRB nil := by decide

theorem DeleteMin_isLLRB (t : LLRB) (h : isLLRB t.root) :
    ∃ t1 m b, DeleteMin t = some (t1, m, b) ∧ isLLRB t1.root ∧
      size t1.root + (if b then 1 else 0) = size t.root ∧
      t1.count = (if b then t.count - 1 else t.count) := by
  by_cases hn : t.root = nil
  · refine ⟨{ count := t.count, root := nil }, 0, false, ?_, isLLRB_nil, by simp [hn, size], rfl⟩
    simp only [DeleteMin, hn, size, deleteMin, blackenRoot]
    rfl
  · obtain ⟨t1, m, e, l1, tl, _, hc⟩ := DeleteMin_spec t h hn
    refine ⟨t1, m, true, e, l1, ?_, hc⟩
    rw [← length_toList, ← length_toList, tl]; simp

theorem DeleteMax_isLLRB (t : LLRB) (h : isLLRB t.root) :
    ∃ t1 m b, DeleteMax t = some (t1, m, b) ∧ isLLRB t1.root ∧
      size t1.root + (if b then 1 else 0) = size t.root ∧
      t1.count = (if b then t.count - 1 else t.count) := by
  by_cases hn : t.root = nil
  · refine ⟨{ count := t.count, root := nil }, 0, false, ?_, isLLRB_nil, by simp [hn, size], rfl⟩
    simp only [DeleteMax, hn, size, deleteMax, blackenRoot]
    rfl
  · obtain ⟨t1, m, e, l1, tl, _, hc⟩ := DeleteMax_spec t h hn
    refine ⟨t1, m, true, e, l1, ?_, hc⟩
    rw [← length_toList, ← length_toList, tl]; simp

/-- C17: every deletion preserves the LLRB invariants: on a tree with strict order, no red
right link, no red node with a red child, equal black height on every path and a black root,
the tree after `Delete(k)` (for any key, present or absent), after `DeleteMin()` and after
`DeleteMax()` has all of these properties again. -/
theorem C17_delete_preserves_invariants (t : LLRB) (o : ordered t.root)
    (h1 : noRedRight t.root = true) (h2 : noRedRed t.root = true)
    (h3 : blackBalanced t.root = true) (h4 : isRed t.root = false) :
    (∀ k, ∃ t1 b, Delete t k = some (t1, b) ∧ ordered t1.root ∧ noRedRight t1.root = true ∧
      noRedRed t1.root = true ∧ blackBalanced t1.root = true ∧ isRed t1.root = false) ∧
    (∃ t1 m b, DeleteMin t = some (t1, m, b) ∧ ordered t1.root ∧ noRedRight t1.root = true ∧
      noRedRed t1.root = true ∧ blackBalanced t1.root = true ∧ isRed t1.root = false) ∧
    (∃ t1 m b, DeleteMax t = some (t1, m, b) ∧ ordered t1.root ∧ noRedRight t1.root = true ∧
      noRedRed t1.root = true ∧ blackBalanced t1.root = true ∧ isRed t1.root = false) := by
  have h : isLLRB t.root := ⟨o, h1, h2, h3, h4⟩
  refine ⟨fun k => ?_, ?_, ?_⟩
  · obtain ⟨t1, b, e, l1, _⟩ := Delete_spec t k h
    exact ⟨t1, b, e, l1⟩
  · obtain ⟨t1, m, b, e, l1, _⟩ := DeleteMin_isLLRB t h
    exact ⟨t1, m, b, e, l1⟩
  · obtain ⟨t1, m, b, e, l1, _⟩ := DeleteMax_isLLRB t h
    exact ⟨t1, m, b, e, l1⟩

/-- C17 at the tree built from 4, 6, 1, 3. -/
theorem C17_delete_preserves_invariants_witness :
    (ordered tree4613.root ∧ noRedRight tree4613.root = true ∧ noRedRed tree4613.root = true ∧
      blackBalanced tree4613.root = true ∧ isRed tree4613.root = false) ∧
    (∃ t1 b, Delete tree4613 4 = some (t1, b) ∧ ordered t1.root ∧ noRedRight t1.root = true ∧
      noRedRed t1.root = true ∧ blackBalanced t1.root = true ∧ isRed t1.root = false) ∧
    (∃ t1 m b, DeleteMin tree4613 = some (t1, m, b) ∧ ordered t1.root ∧
      noRedRight t1.root = true ∧ noRedRed t1.root = true ∧ blackBalanced t1.root = true ∧
      isRed t1.root = false) :=
  ⟨by decide,
    (C17_delete_preserves_invariants tree4613 (by decide) (by decide) (by decide) (by decide)
      (by decide)).1 4,
    (C17_delete_preserves_invariants tree4613 (by decide) (by decide) (by decide) (by decide)
      (by decide)).2.1⟩

/-- C20: on a tree satisfying the LLRB invariants `Delete(k)` runs to completion for every key,
present or absent: no `panic("rotating a black link")`, no `panic("logic")` and no dereference
of a missing child is reached, whatever fuel above the number of nodes the recursion is
given. -/
theorem C20_delete_no_panic (t : LLRB) (k : Nat) (h : isLLRB t.root) :
    (∃ t1 b, Delete t k = some (t1, b)) ∧
    (∀ fuel, size t.root < fuel → ∃ o b, delete fuel t.root k = some (o, b)) := by
  obtain ⟨hp, w, c⟩ := (isLLRB_iff _).1 h
  obtain ⟨t1, b, e, _⟩ := Delete_spec t k h
  refine ⟨⟨t1, b, e⟩, ?_⟩
  intro fuel hf
  obtain ⟨o, b, e1, _⟩ := delete_root k t.root hp w c
  exact ⟨o, b, by rw [delete_fuel k fuel _ t.root hf (Nat.lt_succ_self _)]; exact e1⟩

/-- C20 at the tree built from 2, 1, 4, 3, deleting the key 2 and the absent key 0. -/
theorem C20_delete_no_panic_witness :
    isLLRB tree2143.root ∧ (∃ t1 b, Delete tree2143 2 = some (t1, b)) ∧
    (∃ t1 b, Delete tree2143 0 = some (t1, b)) :=
  ⟨by decide, (C20_delete_no_panic tree2143 2 (by decide)).1,
    (C20_delete_no_panic tree2143 0 (by decide)).1⟩

/-! ## Sequences of calls: count and height -/

theorem Delete_size (t : LLRB) (k : Nat) (h : isLLRB t.root) :
    ∃ t1 b, Delete t k = some (t1, b) ∧ isLLRB t1.root ∧
      size t1.root + (if b then 1 else 0) = size t.root ∧
      t1.count = (if b then t.count - 1 else t.count) := by
  obtain ⟨t1, b, e, l1, tl, hb, hc⟩ := Delete_spec t k h
  refine ⟨t1, b, e, l1, ?_, hc⟩
  have hn : (toList t.root).Nodup := ((isLLRB_iff _).1 h).1.imp (fun h => Nat.ne_of_lt h)
  rw [← length_toList, ← length_toList, tl]
  cases b
  · have : k ∉ toList t.root := fun hk => by simpa using hb.2 hk
    rw [filter_ne_of_not_mem this]; rfl
  · have hk : k ∈ toList t.root := hb.1 rfl
    rw [← hn.erase_eq_filter, List.length_erase_of_mem hk]
    have : 0 < (toList t.root).length := List.length_pos_of_mem hk
    simp only [if_true]; omega

/-- Every call other than `InsertNoReplace` keeps the invariants and a correct count. -/
theorem apply_isLLRB (t : LLRB) (op : Op) (hop : Op.keepsKeysDistinct op = true)
    (h : isLLRB t.root) (hc : t.count = (size t.root : Int)) :
    ∃ t1, Op.apply t op = some t1 ∧ isLLRB t1.root ∧ t1.count = (size t1.root : Int) := by
  cases op with
  | replaceOrInsert k =>
    obtain ⟨t1, b, e, l1, _, _, sz, c1⟩ := ReplaceOrInsert_isLLRB t k h
    refine ⟨t1, by simp [Op.apply, e], l1, ?_⟩
    rw [c1, sz, hc]; cases b <;> simp
  | insertNoReplace k => simp [Op.keepsKeysDistinct] at hop
  | delete k =>
    obtain ⟨t1, b, e, l1, sz, c1⟩ := Delete_size t k h
    refine ⟨t1, by simp [Op.apply, e], l1, ?_⟩
    rw [c1, hc, ← sz]; cases b <;> simp
  | deleteMin =>
    obtain ⟨t1, m, b, e, l1, sz, c1⟩ := DeleteMin_isLLRB t h
    refine ⟨t1, by simp [Op.apply, e], l1, ?_⟩
    rw [c1, hc, ← sz]; cases b <;> simp
  | deleteMax =>
    obtain ⟨t1, m, b, e, l1, sz, c1⟩ := DeleteMax_isLLRB t h
    refine ⟨t1, by simp [Op.apply, e], l1, ?_⟩
    rw [c1, hc, ← sz]; cases b <;> simp

theorem run_isLLRB (ops : List Op) : ∀ (t : LLRB),
    (∀ op ∈ ops, Op.keepsKeysDistinct op = true) → isLLRB t.root →
    t.count = (size t.root : Int) →
    ∃ t1, run t ops = some t1 ∧ isLLRB t1.root ∧ t1.count = (size t1.root : Int) := by
  induction ops with
  | nil => intro t _ h hc; exact ⟨t, rfl, h, hc⟩
  | cons op ops ih =>
    intro t hops h hc
    obtain ⟨t1, e1, l1, c1⟩ := apply_isLLRB t op (hops op (List.mem_cons_self _ _)) h hc
    obtain ⟨t2, e2, l2, c2⟩ := ih t1 (fun o ho => hops o (List.mem_cons_of_mem _ ho)) l1 c1
    exact ⟨t2, by simp only [run, e1, e2], l2, c2⟩

theorem pathLengths_le (h : Node) (w : wf h) :
    ∀ p ∈ pathLengths h, p ≤ 2 * blackHeight h + (if isRed h then 1 else 0) := by
  induction h with
  | nil => intro p hp; simp [pathLengths] at hp; simp [hp]
  | node v l r c ihl ihr =>
    rw [wf_node] at w
    obtain ⟨wl, wr, cr, hc, e⟩ := w
    intro p hp
    simp only [pathLengths, List.mem_map, List.mem_append] at hp
    obtain ⟨q, hq, rfl⟩ := hp
    have hl := ihl wl
    have hr := ihr wr
    rw [cr] at hr
    cases c
    · have cl : isRed l = false := by simpa using hc
      rw [cl] at hl
      simp only [blackHeight_red, isRed_node, Bool.not_false, if_true]
      rcases hq with hq | hq
      · have := hl q hq; simp at this; omega
      · have := hr q hq; simp at this; omega
    · simp only [blackHeight_black, isRed_node, Bool.not_true, Bool.false_eq_true, if_false]
      rcases hq with hq | hq
      · have := hl q hq
        split at this <;> omega
      · have := hr q hq; simp at this; omega

theorem pow_blackHeight_le (h : Node) (w : wf h) : 2 ^ blackHeight h ≤ size h + 1 := by
  induction h with
  | nil => simp [blackHeight, size]
  | node v l r c ihl ihr =>
    rw [wf_node] at w
    obtain ⟨wl, wr, _, _, e⟩ := w
    have hl := ihl wl
    have hr := ihr wr
    rw [← e] at hr
    cases c
    · simp only [blackHeight_red, size]; omega
    · simp only [blackHeight_black, size, pow_succ]; omega

theorem height_bound (h : Node) (hl : isLLRB h) :
    ∀ p ∈ pathLengths h, 2 ^ ((p + 1) / 2) ≤ size h + 1 ∧ p ≤ 2 * Nat.log 2 (size h + 1) := by
  obtain ⟨_, w, c⟩ := (isLLRB_iff _).1 hl
  intro p hp
  have h1 := pathLengths_le h w p hp
  rw [c] at h1
  simp only [Bool.false_eq_true, if_false, Nat.add_zero] at h1
  have h2 := pow_blackHeight_le h w
  have h3 : (p + 1) / 2 ≤ blackHeight h := by omega
  refine ⟨le_trans (Nat.pow_le_pow_right (by decide) h3) h2, ?_⟩
  have := Nat.le_log_of_pow_le (by decide : 1 < 2) h2
  omega

/-- C18: in every tree reached from the empty tree by `ReplaceOrInsert`, `Delete`, `DeleteMin`
and `DeleteMax` calls, holding `n` keys, every path from the root down to a nil link has `h`
nodes with `2^ceil(h/2) <= n + 1`, hence `h <= 2*log2(n+1)`. -/
theorem C18_height_logarithmic (ops : List Op)
    (hops : ∀ op ∈ ops, Op.keepsKeysDistinct op = true) :
    ∃ t, run New ops = some t ∧ Len t = (size t.root : Int) ∧
      (toList t.root).length = size t.root ∧
      ∀ p ∈ pathLengths t.root,
        2 ^ ((p + 1) / 2) ≤ size t.root + 1 ∧ p ≤ 2 * Nat.log 2 (size t.root + 1) := by
  obtain ⟨t, e, l, c⟩ := run_isLLRB ops New hops isLLRB_nil rfl
  exact ⟨t, e, c, length_toList _, height_bound t.root l⟩

/-- C18 at the tree reached by inserting 1 to 7 in order and deleting the minimum. -/
theorem C18_height_logarithmic_witness :
    (∀ op ∈ [Op.replaceOrInsert 1, Op.replaceOrInsert 2, Op.replaceOrInsert 3,
      Op.replaceOrInsert 4, Op.replaceOrInsert 5, Op.replaceOrInsert 6, Op.replaceOrInsert 7,
      Op.deleteMin], Op.keepsKeysDistinct op = true) ∧
    ∃ t, run New [Op.replaceOrInsert 1, Op.replaceOrInsert 2, Op.replaceOrInsert 3,
      Op.replaceOrInsert 4, Op.replaceOrInsert 5, Op.replaceOrInsert 6, Op.replaceOrInsert 7,
      Op.deleteMin] = some t ∧ Len t = (size t.root : Int) ∧
      (toList t.root).length = size t.root ∧
      ∀ p ∈ pathLengths t.root,
        2 ^ ((p + 1) / 2) ≤ size t.root + 1 ∧ p ≤ 2 * Nat.log 2 (size t.root + 1) :=
  ⟨by decide, C18_height_logarithmic _ (by decide)⟩

/-- C15 (what the code does): after `InsertNoReplace` of 5, 5, 7, 3 the tree has four nodes and
`Len()` is 4; `Delete(5)` then returns true and `Len()` becomes 3, but only the two nodes 3 and
5 remain reachable: the node 7 is dropped together with the deleted one.  Without
`InsertNoReplace` calls the count always equals the number of nodes and of keys visited. -/
theorem C15_count_after_duplicates :
    (∃ t4 t5, run New [Op.insertNoReplace 5, Op.insertNoReplace 5, Op.insertNoReplace 7,
        Op.insertNoReplace 3] = some t4 ∧
      Len t4 = 4 ∧ size t4.root = 4 ∧ visited (AscendGreaterOrEqual t4 0) = [3, 5, 5, 7] ∧
      Delete t4 5 = some (t5, true) ∧
      run New [Op.insertNoReplace 5, Op.insertNoReplace 5, Op.insertNoReplace 7,
        Op.insertNoReplace 3, Op.delete 5] = some t5 ∧
      Len t5 = 3 ∧ size t5.root = 2 ∧ visited (AscendGreaterOrEqual t5 0) = [3, 5]) ∧
    (∀ ops : List Op, (∀ op ∈ ops, Op.keepsKeysDistinct op = true) →
      ∃ t, run New ops = some t ∧ Len t = (size t.root : Int) ∧
        (visited (AscendGreaterOrEqual t 0)).length = size t.root) := by
  refine ⟨⟨_, _, rfl, rfl, rfl, rfl, rfl, rfl, rfl, rfl, rfl⟩, ?_⟩
  intro ops hops
  obtain ⟨t, e, _, c⟩ := run_isLLRB ops New hops isLLRB_nil rfl
  exact ⟨t, e, c, by rw [visited_all, length_toList]⟩

/-! ## Order of trees with duplicate keys -/

theorem weaklyOrdered_iff_pairwise (h : Node) :
    weaklyOrdered h ↔ (toList h).Pairwise (· ≤ ·) := by
  induction h with
  | nil => simp [weaklyOrdered, toList]
  | node v l r b ihl ihr =>
    simp only [weaklyOrdered, toList, List.pairwise_append, List.pairwise_cons, List.mem_cons,
      ihl, ihr]
    constructor
    · rintro ⟨hl, hr, h1, h2⟩
      refine ⟨hl, ⟨h2, hr⟩, ?_⟩
      rintro a ha c (rfl | hc)
      · exact h1 a ha
      · exact le_trans (h1 a ha) (h2 c hc)
    · rintro ⟨hl, ⟨h2, hr⟩, h3⟩
      exact ⟨hl, hr, fun x hx => h3 x hx v (Or.inl rfl), h2⟩

theorem duplicatesRight_of_ordered (h : Node) (o : ordered h) : duplicatesRight h := by
  induction h with
  | nil => trivial
  | node v l r b ihl ihr =>
    obtain ⟨ol, or, hl, hr⟩ := o
    exact ⟨ihl ol, ihr or, hl, fun x hx => Nat.le_of_lt (hr x hx)⟩

/-- C21 fails as stated: after `InsertNoReplace(5)` twice the root holds 5 and its left child
is the other 5, moved there by the left rotation of `walkUpRot23`; the key in the left subtree
is not strictly less than the key of the root. -/
theorem C21_duplicate_left_counterexample :
    InsertNoReplaceBulk New [5, 5] =
      some ⟨2, node 5 (node 5 nil nil false) nil true⟩ ∧
    ¬ duplicatesRight (node 5 (node 5 nil nil false) nil true) ∧
    ¬ (∀ (ks : List Nat) (t : LLRB), InsertNoReplaceBulk New ks = some t →
      duplicatesRight t.root) := by
  refine ⟨rfl, by decide, ?_⟩
  intro hall
  have h := hall [5, 5] ⟨2, node 5 (node 5 nil nil false) nil true⟩ rfl
  revert h
  decide

/-- C21 amended: in every tree built from the empty tree by `InsertNoReplace` calls, at every
node the keys of the left subtree are less than or equal to the node's key and the keys of the
right subtree greater than or equal to it; when the inserted keys are pairwise distinct the
left keys are strictly less. -/
theorem C21_insertNoReplace_order (ks : List Nat) :
    ∃ t, InsertNoReplaceBulk New ks = some t ∧ weaklyOrdered t.root ∧
      (toList t.root).Sorted (· ≤ ·) ∧ (ks.Nodup → duplicatesRight t.root) := by
  obtain ⟨t, e, p, q, _⟩ := InsertNoReplaceBulk_keys ks New (by simp [New, toList])
  refine ⟨t, e, (weaklyOrdered_iff_pairwise _).2 p, p, ?_⟩
  intro hn
  have q1 : (toList t.root).Perm ks := by simpa [New, toList] using q
  have hd : (toList t.root).Nodup := q1.nodup_iff.2 hn
  apply duplicatesRight_of_ordered
  rw [ordered_iff_pairwise]
  exact (List.Pairwise.and p hd).imp (fun h => Nat.lt_of_le_of_ne h.1 h.2)

end GoLLRB
